import Mathlib

/-!
# Verification of the `fftGen` code generator (fftGen.c)

This development shallowly embeds the generator engine of `fftGen.c`:

* the binary-inversion (bit-reversal) permutation planner with its
  Gold-Rader running counter and the `symmIn` dependency-aware insertion
  pass (fftGen.c lines 639-778),
* the permutation emitter (lines 780-817),
* the butterfly emitter with its constant-folding threshold comparisons
  and the `nzi` zero-imaginary tracker (lines 819-1064),
* the twiddle classification thresholds (lines 605-607, 860-875),
* the option-parsing driver shell (`main`, `checkOptions`, `checkOption`,
  `info`; lines 463-583 and 1090-1255).

C `int` values are modelled as `Nat`/`Int` (no overflow occurs in the
reachable range for power-of-two point counts), C `double` values as `ℝ`,
and the emitted text as a list of statement AST nodes each of which
corresponds to exactly one `printf`/`fputs` in the source.
-/

namespace FftGen

/-! ## Bit reversal -/

/-- `bitRev r m` is the reversal of the `r` low bits of `m` (the mathematical
specification of the binary-inversion permutation; the planner itself uses the
Gold-Rader recurrence below, and we prove the two agree). -/
def bitRev : Nat → Nat → Nat
  | 0, _ => 0
  | r + 1, m => (m % 2) * 2 ^ r + bitRev r (m / 2)

/-- Reversed-counter increment: add `1` at the most significant of `r` bits,
propagating the carry downwards.  This is the textbook reading of what one
Gold-Rader step does; `grNext_eq_revInc` connects it to the loop in the code. -/
def revInc : Nat → Nat → Nat
  | 0, y => y
  | r + 1, y => if y < 2 ^ r then y + 2 ^ r else revInc r (y - 2 ^ r)

/-! ## The Gold-Rader inner loop (fftGen.c lines 675-679)

```c
k = n;
do {
    k /= 2;
} while (mr+k > nn);
mr = mr%k + k;
```

`grHalveAux` runs the `do`/`while` loop on current divisor `k`; the first
argument is recursion fuel (the loop halves `k` each cycle, so `k` cycles are
more than enough; when `mr ≤ nn` the loop provably stops at or before
`k = 0` since `mr + 0 > nn` is then false).  For `mr > nn` the C loop would
never terminate; that state is unreachable in the walk below. -/

def grHalveAux (nn mr : Nat) : Nat → Nat → Nat
  | 0, k => k / 2
  | fuel + 1, k =>
    let d := k / 2
    if nn < mr + d then grHalveAux nn mr fuel d else d

/-- Result of `k = n; do k /= 2; while (mr + k > nn);`. -/
def grHalve (nn mr k : Nat) : Nat := grHalveAux nn mr k k

/-- One full Gold-Rader update of the running reversed counter `mr`
(lines 675-679): halve `k` as long as `mr + k > nn`, then `mr = mr%k + k`. -/
def grNext (nn mr n : Nat) : Nat :=
  let k := grHalve nn mr n
  mr % k + k

/-! ## The permutation planner (fftGen.c lines 611-778) -/

/-- One entry of the `swap[]` array (`struct SwapSt`, lines 611-621).
Field names follow the source: `m`/`mr` are the indices to swap, `m_new` and
`mr_new` are the replacement source indices under the input-symmetry
optimization, `symmIn` is the per-record flag `swap[].symmIn`. -/
structure SwapRec where
  m : Nat
  mr : Nat
  m_new : Nat
  mr_new : Nat
  symmIn : Bool
deriving DecidableEq, Repr

instance : Inhabited SwapRec := ⟨⟨0, 0, 0, 0, false⟩⟩

/-- The backward scan of lines 716-718 (and 723-725):

```c
for (i_m=nSwap-1; i_m>0; --i_m) {
    if (m_new == swap[i_m].m || m_new == swap[i_m].mr)  break;
}
```

`scanBackAux l v i` scans indices `i, i-1, …, 1` (index `0` is never
examined, exactly as in the source) and returns the first index whose record
mentions `v`, or `0` if none does. -/
def scanBackAux (l : List SwapRec) (v : Nat) : Nat → Nat
  | 0 => 0
  | i + 1 =>
    if (l.getD (i + 1) default).m = v ∨ (l.getD (i + 1) default).mr = v then i + 1
    else scanBackAux l v i

/-- The backward scan started from `nSwap - 1`. -/
def scanBack (l : List SwapRec) (v : Nat) : Nat := scanBackAux l v (l.length - 1)

/-- The shifting insertion of lines 741-754: make room at index `p` by moving
records `p … nSwap-1` one slot up, then store the new record at `p`. -/
def insertAt (l : List SwapRec) (p : Nat) (x : SwapRec) : List SwapRec :=
  l.take p ++ x :: l.drop p

/-- Append or insert one swap command, lines 685-757 (the body of
`if (mr > m) { … }` minus the `++nSwap`).  `symm` is the `symmIn`
command-line flag. -/
def planAdd (n : Nat) (symm : Bool) (l : List SwapRec) (m mr : Nat) :
    List SwapRec :=
  if ¬ symm then
    -- lines 686-689: standard binary inversion record; `m_new`/`mr_new`
    -- keep their `0` initialization from lines 661-666
    l ++ [⟨m, mr, 0, 0, false⟩]
  else if m ≤ n / 2 ∧ mr ≤ n / 2 then
    -- lines 695-696: no symmetry substitution required
    l ++ [⟨m, mr, 0, 0, false⟩]
  else
    -- lines 697-755
    let m_new := if n / 2 < m then n - m else m
    let mr_new := if n / 2 < mr then n - mr else mr
    let i_m := if n / 2 < m then scanBack l m_new else 0
    let i_mr := if n / 2 < mr then scanBack l mr_new else 0
    -- lines 728-733: use the lowest of both and assign it to i_mr
    let p := if 0 < i_mr ∧ 0 < i_m then min i_mr i_m
             else if 0 < i_m then i_m else i_mr
    if 0 < p then insertAt l p ⟨m, mr, m_new, mr_new, true⟩
    else l ++ [⟨m, mr, m_new, mr_new, true⟩]

/-- The planner walk of lines 673-760: `m` runs from `1` to `n-1`, the
running counter `mr` is updated by one Gold-Rader step, and whenever
`mr > m` a record is added by `planAdd`. -/
def planWalk (n : Nat) (symm : Bool) : Nat × List SwapRec :=
  (List.range' 1 (n - 1)).foldl
    (fun st m =>
      let mr := grNext (n - 1) st.1 n
      (mr, if m < mr then planAdd n symm st.2 m mr else st.2))
    (0, [])

/-- The final ordered `swap[]` list produced by the planner. -/
def plan (n : Nat) (symm : Bool) : List SwapRec := (planWalk n symm).2

/-- Indices `n/2+1 … n-1` that appear in no swap record and therefore get a
Hermitian fill-in, lines 769-777 (in increasing order, as emitted). -/
def fillIdxs (n : Nat) (l : List SwapRec) : List Nat :=
  (List.range' (n / 2 + 1) (n - (n / 2 + 1))).filter
    (fun i => l.all (fun x => ¬ (x.m = i ∨ x.mr = i)))

/-- The candidate swap pairs of the walk restricted to `m = 1 … j`. -/
def pairsUpTo (r j : Nat) : List (Nat × Nat) :=
  (List.range' 1 j).filterMap
    (fun m => if m < bitRev r m then some (m, bitRev r m) else none)

/-- The candidate swap pairs of the walk, in walk order: `(m, bitRev r m)`
for `m = 1 … 2^r - 1` whenever the reversal exceeds `m`.  `plan_eq_planFold`
proves that the Gold-Rader walk enumerates exactly this list. -/
def pairs (r : Nat) : List (Nat × Nat) := pairsUpTo r (2 ^ r - 1)

/-- The planner's list construction as a fold over a given pair list. -/
def planFold (n : Nat) (symm : Bool) (ps : List (Nat × Nat)) : List SwapRec :=
  ps.foldl (fun l p => planAdd n symm l p.1 p.2) []

/-- The record `planAdd` constructs for the candidate pair `(m, mr)` when the
input-symmetry optimization is active. -/
def mkRec (n m mr : Nat) : SwapRec :=
  if m ≤ n / 2 ∧ mr ≤ n / 2 then ⟨m, mr, 0, 0, false⟩
  else ⟨m, mr, if n / 2 < m then n - m else m,
        if n / 2 < mr then n - mr else mr, true⟩

/-- Indices a swap record reads from: the replacement sources for a
symmetry record, the swapped indices themselves otherwise. -/
def reads (x : SwapRec) : List Nat :=
  if x.symmIn then [x.m_new, x.mr_new] else [x.m, x.mr]

/-- `x` writes array index `i` (both swap forms write exactly `m` and `mr`). -/
def Writes (x : SwapRec) (i : Nat) : Prop := x.m = i ∨ x.mr = i

/-- Safety of an ordered record list: no record reads from an index that an
earlier record has already written. -/
def SafeList (l : List SwapRec) : Prop :=
  l.Pairwise (fun a b => ∀ i ∈ reads b, ¬ Writes a i)

/-- Invariant carried through the planner fold under `symmIn`: the list holds
exactly the records of the pairs processed so far, the record for the pair
`(1, n/2)` (when present) sits at position `0`, and the list is read/write
safe. -/
def PlanInv (r : Nat) (ps : List (Nat × Nat)) (L : List SwapRec) : Prop :=
  L.Perm (ps.map (fun p => mkRec (2 ^ r) p.1 p.2)) ∧
  (∀ x, L.head? = some x → x.m = 1 ∧ x.mr = 2 ^ (r - 1)) ∧
  SafeList L

/-! ## Record-level execution semantics

The claims about the permutation stage speak about records as array
operations: a `symmIn = false` record swaps `x[m]` and `x[mr]` (through the
temporary, lines 788-794), a `symmIn = true` record copies from the mirror
sources, conjugating when the destination pair index lies above `n/2`
(lines 799-814).  `conj` abstracts the component-wise effect of the
conjugation on the stored value (identity for `xr`, negation for `xi`,
complex conjugation for a complex-valued array). -/

/-- Execute one swap record on an array. -/
def execRec {α : Type} (n : Nat) (conj : α → α) (x : SwapRec) (A : Nat → α) :
    Nat → α :=
  if x.symmIn then
    -- lines 799-814: two copies; the second statement reads after the first
    -- has written, exactly as emitted
    let A1 := Function.update A x.mr
      (if n / 2 < x.m then conj (A x.m_new) else A x.m_new)
    Function.update A1 x.m
      (if n / 2 < x.mr then conj (A1 x.mr_new) else A1 x.mr_new)
  else
    -- lines 788-794: swap through the temporary
    let t := A x.m
    let A1 := Function.update A x.m (A x.mr)
    Function.update A1 x.mr t

/-- Execute a record list in order. -/
def execRecs {α : Type} (n : Nat) (conj : α → α) (l : List SwapRec)
    (A : Nat → α) : Nat → α :=
  l.foldl (fun B x => execRec n conj x B) A

/-- Execute the Hermitian fill-ins (lines 769-777) in order. -/
def execFills {α : Type} (n : Nat) (conj : α → α) (fs : List Nat)
    (A : Nat → α) : Nat → α :=
  fs.foldl (fun B i => Function.update B i (conj (B (n - i)))) A

/-- An array whose upper half (`n/2+1 … n-1`) has been Hermitian-filled in
advance. -/
def prefillHerm {α : Type} (n : Nat) (conj : α → α) (A : Nat → α) : Nat → α :=
  fun i => if n / 2 < i ∧ i < n then conj (A (n - i)) else A i

/-! ## The emitted statements

Each constructor corresponds to exactly one `printf` in `fftGen` (line
numbers in the comments); the `α`-valued fields hold the numeric literal
exactly as printed (`NUMBER_FORMAT`).  `blank` is the single `putchar`
of line 817. -/

/-- Which array an emitted operand refers to. -/
inductive Var where
  | xr
  | xi
deriving DecidableEq, Repr

/-- One summand of a `tr`/`ti` expression: a literal times an array element,
or a bare (possibly negated) array element. -/
inductive Term (α : Type) where
  | lit (v : α) (x : Var) (j : Nat)
  | pos (x : Var) (j : Nat)
  | neg (x : Var) (j : Nat)
deriving Repr

/-- A second summand together with its printed operator sign
(`sub = true` for `" - "`, `false` for `" + "`). -/
structure STm (α : Type) where
  sub : Bool
  t : Term α
deriving Repr

/-- The right-hand side of a `tr =`/`ti =` statement. -/
inductive Rhs (α : Type) where
  | single (t : Term α)
  | pair (t1 : Term α) (t2 : STm α)
deriving Repr

/-- One emitted statement. -/
inductive Stmt (α : Type) where
  | assignTr (e : Rhs α)        -- "tr = …;"          lines 911-917
  | assignTi (e : Rhs α)        -- "ti = …;"          lines 983-989
  | xrJSub (jj ii : Nat)        -- "xr[jj] = xr[ii] - tr;"  line 1002
  | xrJCopy (jj ii : Nat)       -- "xr[jj] = xr[ii];"       line 1004
  | xiJSub (jj ii : Nat)        -- "xi[jj] = xi[ii] - ti;"  line 1013
  | xiJNegTi (jj : Nat)         -- "xi[jj] = - ti;"         line 1015
  | xiJCopy (jj ii : Nat)       -- "xi[jj] = xi[ii];"       line 1020
  | xiZero (j : Nat)            -- "xi[j] = 0.0;"           lines 1028, 1057
  | xrAccum (ii : Nat)          -- "xr[ii] += tr;"          line 1038
  | xiAccum (ii : Nat)          -- "xi[ii] += ti;"          line 1047
  | xiSetTi (ii : Nat)          -- "xi[ii] = ti;"           line 1049
  | trLoad (m : Nat)            -- "tr = xr[m];"            line 788
  | xrMove (d s : Nat)          -- "xr[d] = xr[s];"         lines 774, 789, 799, 800
  | xrStoreTr (mr : Nat)        -- "xr[mr] = tr;"           line 790
  | tiLoad (m : Nat)            -- "ti = xi[m];"            line 792
  | xiMove (d s : Nat)          -- "xi[d] = xi[s];"         lines 793, 803, 809
  | xiStoreTi (mr : Nat)        -- "xi[mr] = ti;"           line 794
  | xiMoveNeg (d s : Nat)       -- "xi[d] = -xi[s];"        lines 775, 806, 812
  | blank                       -- putchar of line 817
deriving Repr

/-- The numeric literal a summand prints (`NUMBER_FORMAT`), if any. -/
def termLits {α : Type} : Term α → List α
  | .lit v _ _ => [v]
  | _ => []

/-- The numeric literals printed in a right-hand side. -/
def rhsLits {α : Type} : Rhs α → List α
  | .single t => termLits t
  | .pair t1 t2 => termLits t1 ++ termLits t2.t

/-- The numeric literals printed in a statement (only `tr =`/`ti =` lines
carry literals; `0.0` and the array indices are fixed text of the template,
not `NUMBER_FORMAT` output). -/
def stmtLits {α : Type} : Stmt α → List α
  | .assignTr e => rhsLits e
  | .assignTi e => rhsLits e
  | _ => []

/-! ## The permutation emitter (lines 761-817) -/

/-- The two fill statements for an untouched upper-half index (774-775). -/
def emitFill (α : Type) (n i : Nat) : List (Stmt α) :=
  [.xrMove i (n - i), .xiMoveNeg i (n - i)]

/-- The statements emitted for one swap record (lines 786-815). -/
def emitSwap (α : Type) (n : Nat) (realIn : Bool) (x : SwapRec) :
    List (Stmt α) :=
  if ¬ x.symmIn then
    [.trLoad x.m, .xrMove x.m x.mr, .xrStoreTr x.mr]
    ++ (if realIn then [] else [.tiLoad x.m, .xiMove x.m x.mr, .xiStoreTi x.mr])
  else
    [.xrMove x.mr x.m_new, .xrMove x.m x.mr_new]
    ++ (if realIn then []
        else
          [if x.m ≤ n / 2 then .xiMove x.mr x.m_new else .xiMoveNeg x.mr x.m_new,
           if x.mr ≤ n / 2 then .xiMove x.m x.mr_new else .xiMoveNeg x.m x.mr_new])

/-- The whole permutation phase: Hermitian fills (under `symmIn`), then the
reordered swap list. -/
def emitPerm (α : Type) (n : Nat) (realIn symmIn : Bool) : List (Stmt α) :=
  (if symmIn then (fillIdxs n (plan n symmIn)).flatMap (emitFill α n) else [])
  ++ (plan n symmIn).flatMap (emitSwap α n realIn)

/-! ## The twiddle classifier (lines 605-607, 860-909)

The source has no named classifier; the emitter repeats one comparison
ladder (`fabs(w) > eps`, `w < epsOne`, `w > epsMOne`, then the sign test
`w >= 0.0`) for `wr` and `wi`.  `classify` is that ladder. -/

inductive WClass where
  | zero
  | plusOne
  | minusOne
  | pos
  | neg
deriving DecidableEq, Repr

/-- The threshold comparison ladder of the emitter. -/
def classify {α : Type} [LinearOrderedField α] (w eps epsOne epsMOne : α) :
    WClass :=
  if eps < |w| then
    if w < epsOne then
      if epsMOne < w then
        if 0 ≤ w then .pos else .neg
      else .minusOne
    else .plusOne
  else .zero

/-! ## The butterfly emitter (lines 819-1064) -/

/-- The comparison ladder emitting one twiddle summand `w*x[j]` once
`|w| > eps` is known: a literal when `w` is neither `1` nor `-1`
(lines 862-874 for `tr`, lines 938-950 for `ti`). -/
def wTerm {α : Type} [LinearOrderedField α] (epsOne epsMOne w : α)
    (x : Var) (j : Nat) : Term α :=
  if w < epsOne then (if epsMOne < w then .lit w x j else .neg x j)
  else .pos x j

/-- The right-hand side of `tr = wr*xr[jj] - wi*xi[jj];` after constant
folding, lines 850-922; `none` means the whole expression folded to zero
(`trz`).  `nzjj` is `nzi[jj]`. -/
def trRhs {α : Type} [LinearOrderedField α] (eps epsOne epsMOne wr wi : α)
    (jj : Nat) (nzjj : Bool) : Option (Rhs α) :=
  -- part wr*xr[jj], lines 855-878
  let t1 : Option (Term α) :=
    if eps < |wr| then some (wTerm epsOne epsMOne wr .xr jj) else none
  -- part -wi*xi[jj], lines 880-922
  if eps < |wi| ∧ nzjj then
    some (if wi < epsOne then
      (if epsMOne < wi then
        (match t1 with
         | some t => if 0 ≤ wi then .pair t ⟨true, .lit wi .xi jj⟩
                     else .pair t ⟨false, .lit (-wi) .xi jj⟩
         | none => .single (.lit (-wi) .xi jj))
       else
        -- wi == -1, lines 900-905
        (match t1 with
         | some t => .pair t ⟨false, .pos .xi jj⟩
         | none => .single (.pos .xi jj)))
     else
      -- wi == 1, lines 907-909: " - xi[jj]" is appended in both cases
      (match t1 with
       | some t => .pair t ⟨true, .pos .xi jj⟩
       | none => .single (.neg .xi jj)))
  else
    match t1 with
    | some t => some (.single t)
    | none => none

/-- The right-hand side of `ti = wr*xi[jj] + wi*xr[jj];` after constant
folding, lines 924-995; `none` means `tiz`. -/
def tiRhs {α : Type} [LinearOrderedField α] (eps epsOne epsMOne wr wi : α)
    (jj : Nat) (nzjj : Bool) : Option (Rhs α) :=
  -- part wr*xi[jj], lines 929-954
  let t1 : Option (Term α) :=
    if eps < |wr| ∧ nzjj then some (wTerm epsOne epsMOne wr .xi jj) else none
  -- part +wi*xr[jj], lines 956-994
  if eps < |wi| then
    some (if wi < epsOne then
      (if epsMOne < wi then
        (match t1 with
         | some t => if 0 ≤ wi then .pair t ⟨false, .lit wi .xr jj⟩
                     else .pair t ⟨true, .lit (-wi) .xr jj⟩
         | none => .single (.lit wi .xr jj))
       else
        -- wi == -1, lines 975-977
        (match t1 with
         | some t => .pair t ⟨true, .pos .xr jj⟩
         | none => .single (.neg .xr jj)))
     else
      -- wi == 1, lines 979-981: the source prints " xr[jj]" with no
      -- operator; after a nonempty first summand that juxtaposition is a
      -- formatting slip, unreachable for genuine twiddles (wi near 1
      -- forces wr near 0), and is modelled as an implicit "+"
      (match t1 with
       | some t => .pair t ⟨false, .pos .xr jj⟩
       | none => .single (.pos .xr jj)))
  else
    match t1 with
    | some t => some (.single t)
    | none => none

/-- The `tr = …;` statement, lines 911-917 (nothing when the expression
folded to zero). -/
def trAssign {α : Type} : Option (Rhs α) → List (Stmt α)
  | some e => [Stmt.assignTr e]
  | none => []

/-- The `ti = …;` statement, lines 983-989; the whole block is skipped when
`realOut && lastKCycle` (line 927). -/
def tiAssign {α : Type} (skip : Bool) (tiOpt : Option (Rhs α)) : List (Stmt α) :=
  if skip then []
  else match tiOpt with
    | some e => [Stmt.assignTi e]
    | none => []

/-- The `xr[jj]`/`xi[jj]` writes of lines 997-1032 with their `nzi[jj]`
update; `trz`/`tiz` are the folded-to-zero flags, `nzi` the tracker before
this butterfly (lines 1012 and 1019 read `nzi[ii]` before any update). -/
def jjOut (α : Type) (n ii jj : Nat) (realIn realOut symmOut last : Bool)
    (trz tiz : Bool) (nzi : Nat → Bool) : List (Stmt α) × (Nat → Bool) :=
  if symmOut && last && jj ≠ n / 2 then ([], nzi)
  else
    let s1 : Stmt α := if trz then .xrJCopy jj ii else .xrJSub jj ii
    if realOut && last then ([s1], nzi)
    else if ¬ tiz then
      ([s1, if nzi ii then .xiJSub jj ii else .xiJNegTi jj],
       Function.update nzi jj true)
    else if nzi ii then ([s1, .xiJCopy jj ii], Function.update nzi jj true)
    else if realIn && last then ([s1, .xiZero jj], nzi)
    else ([s1], nzi)

/-- The `xr[ii] += tr;` of lines 1037-1039. -/
def xrAccumOut (α : Type) (ii : Nat) (trz : Bool) : List (Stmt α) :=
  if trz then [] else [Stmt.xrAccum ii]

/-- The `xi[ii]` update of lines 1044-1059 with its `nzi[ii]` update; `nz`
is the tracker state after the `xi[jj]` block (line 1046 reads `nzi[ii]`
after the possible `nzi[jj]` write of line 1017/1021). -/
def iiOut (α : Type) (ii : Nat) (realIn realOut last : Bool) (tiz : Bool)
    (nz : Nat → Bool) : List (Stmt α) × (Nat → Bool) :=
  if realOut && last then ([], nz)
  else if ¬ tiz then
    if nz ii then ([Stmt.xiAccum ii], nz)
    else ([Stmt.xiSetTi ii], Function.update nz ii true)
  else if realIn && last then ([Stmt.xiZero ii], nz)
  else ([], nz)

/-- One butterfly (the body of the innermost loop, lines 833-1061): the
emitted statements in order and the updated `nzi` vector.  `last` is
`lastKCycle`. -/
def butterfly {α : Type} [LinearOrderedField α]
    (eps epsOne epsMOne wr wi : α) (n ii jj : Nat)
    (realIn realOut symmOut last : Bool) (nzi : Nat → Bool) :
    List (Stmt α) × (Nat → Bool) :=
  let trOpt := trRhs eps epsOne epsMOne wr wi jj (nzi jj)
  let tiOpt := tiRhs eps epsOne epsMOne wr wi jj (nzi jj)
  let o3 := jjOut α n ii jj realIn realOut symmOut last
    trOpt.isNone tiOpt.isNone nzi
  let o5 := iiOut α ii realIn realOut last tiOpt.isNone o3.2
  (trAssign trOpt ++ tiAssign (realOut && last) tiOpt ++ o3.1
     ++ xrAccumOut α ii trOpt.isNone ++ o5.1,
   o5.2)

/-! ## The butterfly schedule (lines 822-832) -/

/-- The stage sizes `k = 1, 2, 4, …` while `k < n` (`for (k=1; k<n; k=istep)`
with `istep = 2*k`).  The first argument is recursion fuel; `k` at least
doubles each cycle, so fuel `n` always suffices. -/
def stagesK : Nat → Nat → Nat → List Nat
  | 0, _, _ => []
  | fuel + 1, k, n => if k < n then k :: stagesK fuel (2 * k) n else []

/-- All stage sizes for an `n`-point transform. -/
def stages (n : Nat) : List Nat := stagesK n 1 n

/-- Number of butterflies of group `m` in stage `k`:
`nm = (nn-m)/istep + m` and `i` runs `m … nm`, so the count is
`(n-1-m)/(2k) + 1` (line 832). -/
def bflyCount (n k m : Nat) : Nat := (n - 1 - m) / (2 * k) + 1

/-- The inner loop of lines 833-1062 for one `(k, m)` group: butterfly at
`ii = m + j*2k`, `jj = ii + k`, statements accumulated in order, `nzi`
threaded through. -/
def runInner {α : Type} [LinearOrderedField α]
    (eps epsOne epsMOne wr wi : α) (n k m : Nat)
    (realIn realOut symmOut last : Bool)
    (st : List (Stmt α) × (Nat → Bool)) : List (Stmt α) × (Nat → Bool) :=
  (List.range (bflyCount n k m)).foldl
    (fun st j =>
      let ii := m + j * (2 * k)
      let b := butterfly eps epsOne epsMOne wr wi n ii (ii + k)
        realIn realOut symmOut last st.2
      (st.1 ++ b.1, b.2))
    st

/-- One whole stage (the `m` loop of lines 826-1063).  `tw m k` returns the
twiddle pair `(wr, wi)` after the `inv` adjustment; `lastKCycle` is set at
line 824 exactly when `istep = 2k` equals `n` (and the loop then ends, so
per-stage evaluation agrees with the sticky C flag). -/
def runStage {α : Type} [LinearOrderedField α]
    (eps epsOne epsMOne : α) (tw : Nat → Nat → α × α) (n k : Nat)
    (realIn realOut symmOut : Bool)
    (st : List (Stmt α) × (Nat → Bool)) : List (Stmt α) × (Nat → Bool) :=
  let last := 2 * k == n
  (List.range k).foldl
    (fun st m =>
      runInner eps epsOne epsMOne (tw m k).1 (tw m k).2 n k m
        realIn realOut symmOut last st)
    st

/-- The `nzi` initialization of lines 633-637: all zero under `realIn`,
all one otherwise. -/
def nziInit (realIn : Bool) : Nat → Bool := fun _ => !realIn

/-- The full transform emission (lines 819-1064), starting from the `nzi`
initialization of lines 633-637. -/
def emitBflys {α : Type} [LinearOrderedField α]
    (eps epsOne epsMOne : α) (tw : Nat → Nat → α × α) (n : Nat)
    (realIn realOut symmOut : Bool) : List (Stmt α) × (Nat → Bool) :=
  (stages n).foldl
    (fun st k => runStage eps epsOne epsMOne tw n k realIn realOut symmOut st)
    ([], nziInit realIn)

/-! ## The real-valued thresholds and twiddles (lines 605-607, 827-830)

The C expressions use the integer quotient `n/2` converted to `double`; for
`n = 1` that quotient is `0` and the C program computes `sin(inf) = NaN`,
which is never used because no stage exists — in `ℝ` division by zero gives
`0`, equally unused. -/

noncomputable def epsOf (n : Nat) : ℝ :=
  0.5 * Real.sin (Real.pi / (n / 2 : Nat))

noncomputable def epsOneOf (n : Nat) : ℝ :=
  1 - 0.5 * (1 - Real.cos (Real.pi / (n / 2 : Nat)))

noncomputable def epsMOneOf (n : Nat) : ℝ :=
  -1 + 0.5 * (1 - Real.cos (Real.pi / (n / 2 : Nat)))

/-- `a = M_PI*(-m)/k; wr = cos(a); wi = sin(a); if (inv) wi = -wi;`. -/
noncomputable def twiddle (inv : Bool) (m k : Nat) : ℝ × ℝ :=
  let a : ℝ := Real.pi * (-(m : ℝ)) / (k : ℝ)
  (Real.cos a, if inv then -Real.sin a else Real.sin a)

/-- Everything `fftGen` writes to `stdout` for point count `n`: the
permutation stage (under `symmIn` preceded by the Hermitian fill-ins), the
separating `putchar` of line 817, then the butterfly stages. -/
noncomputable def fftGenStmts (n : Nat)
    (inv realIn realOut symmIn symmOut : Bool) : List (Stmt ℝ) :=
  emitPerm ℝ n realIn symmIn ++
    Stmt.blank ::
      (emitBflys (epsOf n) (epsOneOf n) (epsMOneOf n) (twiddle inv) n
        realIn realOut symmOut).1

/-! ## Statement semantics

A machine state holds the two arrays and the two scalar temporaries of the
generated function. -/

structure MachState (α : Type) where
  xr : Nat → α
  xi : Nat → α
  tr : α
  ti : α

/-- Value of an operand. -/
def evalVar {α : Type} (σ : MachState α) : Var → Nat → α
  | .xr, j => σ.xr j
  | .xi, j => σ.xi j

/-- Value of a summand. -/
def evalTerm {α : Type} [LinearOrderedField α] (σ : MachState α) : Term α → α
  | .lit v x j => v * evalVar σ x j
  | .pos x j => evalVar σ x j
  | .neg x j => -evalVar σ x j

/-- Value of a right-hand side. -/
def evalRhs {α : Type} [LinearOrderedField α] (σ : MachState α) : Rhs α → α
  | .single t => evalTerm σ t
  | .pair t1 t2 =>
    if t2.sub then evalTerm σ t1 - evalTerm σ t2.t
    else evalTerm σ t1 + evalTerm σ t2.t

/-- Effect of one emitted statement. -/
def execStmt {α : Type} [LinearOrderedField α] (σ : MachState α) :
    Stmt α → MachState α
  | .assignTr e => { σ with tr := evalRhs σ e }
  | .assignTi e => { σ with ti := evalRhs σ e }
  | .xrJSub jj ii => { σ with xr := Function.update σ.xr jj (σ.xr ii - σ.tr) }
  | .xrJCopy jj ii => { σ with xr := Function.update σ.xr jj (σ.xr ii) }
  | .xiJSub jj ii => { σ with xi := Function.update σ.xi jj (σ.xi ii - σ.ti) }
  | .xiJNegTi jj => { σ with xi := Function.update σ.xi jj (-σ.ti) }
  | .xiJCopy jj ii => { σ with xi := Function.update σ.xi jj (σ.xi ii) }
  | .xiZero j => { σ with xi := Function.update σ.xi j 0 }
  | .xrAccum ii => { σ with xr := Function.update σ.xr ii (σ.xr ii + σ.tr) }
  | .xiAccum ii => { σ with xi := Function.update σ.xi ii (σ.xi ii + σ.ti) }
  | .xiSetTi ii => { σ with xi := Function.update σ.xi ii σ.ti }
  | .trLoad m => { σ with tr := σ.xr m }
  | .xrMove d s => { σ with xr := Function.update σ.xr d (σ.xr s) }
  | .xrStoreTr mr => { σ with xr := Function.update σ.xr mr σ.tr }
  | .tiLoad m => { σ with ti := σ.xi m }
  | .xiMove d s => { σ with xi := Function.update σ.xi d (σ.xi s) }
  | .xiStoreTi mr => { σ with xi := Function.update σ.xi mr σ.ti }
  | .xiMoveNeg d s => { σ with xi := Function.update σ.xi d (-σ.xi s) }
  | .blank => σ

/-- Run a statement list in order. -/
def execStmts {α : Type} [LinearOrderedField α] (σ : MachState α)
    (l : List (Stmt α)) : MachState α :=
  l.foldl execStmt σ

/-- The destination index of an `xi` assignment whose value the emitter
cannot prove to be zero (every `xi` write except the literal
`xi[_] = 0.0;`). -/
def xiAssignIdx {α : Type} : Stmt α → Option Nat
  | .xiJSub jj _ => some jj
  | .xiJNegTi jj => some jj
  | .xiJCopy jj _ => some jj
  | .xiAccum ii => some ii
  | .xiSetTi ii => some ii
  | .xiStoreTi mr => some mr
  | .xiMove d _ => some d
  | .xiMoveNeg d _ => some d
  | _ => none

/-! ## The option-parsing driver (`main`, `checkOptions`, `checkOption`,
`info`; lines 463-583 and 1090-1255)

The driver is modelled over `List Char` views of the argument strings.
`sscanf` with the `%i` conversion follows `strtol` with base `0`:
optional whitespace, optional sign, then hexadecimal after `0x`/`0X`,
octal after `0`, else decimal. -/

/-- The six C white-space characters skipped by `%i`. -/
def isWsC (c : Char) : Bool :=
  c == ' ' || c == '\t' || c == '\n' || c == '\x0b' || c == '\x0c' || c == '\x0d'

/-- Numeric value of a (hexadecimal) digit character. -/
def hexVal (c : Char) : Option Nat :=
  if '0' ≤ c ∧ c ≤ '9' then some (c.toNat - '0'.toNat)
  else if 'a' ≤ c ∧ c ≤ 'f' then some (c.toNat - 'a'.toNat + 10)
  else if 'A' ≤ c ∧ c ≤ 'F' then some (c.toNat - 'A'.toNat + 10)
  else none

/-- Digit value in the given base. -/
def digitInBase (base : Nat) (c : Char) : Option Nat :=
  match hexVal c with
  | some v => if v < base then some v else none
  | none => none

/-- Consume leading digits in `base`; returns (digit count, value). -/
def takeDigits (base : Nat) : List Char → Nat → Nat → Nat × Nat
  | [], cnt, acc => (cnt, acc)
  | c :: t, cnt, acc =>
    match digitInBase base c with
    | some v => takeDigits base t (cnt + 1) (acc * base + v)
    | none => (cnt, acc)

/-- One `%i` conversion (`strtol` base 0); `none` when no digits could be
consumed, in which case `sscanf` reports a matching failure. -/
def parseCInt (cs : List Char) : Option Int :=
  let cs1 := cs.dropWhile isWsC
  let sgn : Bool × List Char :=
    match cs1 with
    | '-' :: t => (true, t)
    | '+' :: t => (false, t)
    | _ => (false, cs1)
  let val : Option Nat :=
    match sgn.2 with
    | '0' :: c :: t =>
      if c == 'x' || c == 'X' then
        match takeDigits 16 t 0 0 with
        | (0, _) => some 0      -- "0x" without a hex digit: strtol consumed "0"
        | (_, v) => some v
      else
        -- octal; the leading 0 itself is a digit, so this always succeeds
        some (takeDigits 8 (c :: t) 0 0).2
    | ['0'] => some 0
    | other =>
      match takeDigits 10 other 0 0 with
      | (0, _) => none
      | (_, v) => some v
  val.map (fun v => if sgn.1 then -(v : Int) else (v : Int))

/-- `strncmp(s, p, strlen p) == 0`: does `s` start with `p`? -/
def lStarts : List Char → List Char → Bool
  | _, [] => true
  | [], _ :: _ => false
  | c :: s, d :: p => c == d && lStarts s p

/-- One assembled `sscanf` format `"<pre>%i"` applied to `cs`
(line 1173-1176). -/
def tryFmt (pre cs : List Char) : Option Int :=
  if lStarts cs pre then parseCInt (cs.drop pre.length) else none

/-- The four formats tried in order for a numeric option:
`"sh=%i"`, `"sh%i"`, `"lg=%i"`, `"lg%i"`. -/
def tryNumFmts (sh lg cs : List Char) : Option Int :=
  match tryFmt (sh ++ ['=']) cs with
  | some v => some v
  | none =>
    match tryFmt sh cs with
    | some v => some v
    | none =>
      match tryFmt (lg ++ ['=']) cs with
      | some v => some v
      | none => tryFmt lg cs

/-- The option variables of `main` (lines 467-474).  The boolean options are
C `int` counters incremented on every occurrence; truthiness is `≠ 0`. -/
structure Opts where
  n : Int
  inv : Nat
  realIn : Nat
  realOut : Nat
  symmIn : Nat
  symmOut : Nat
  license : Nat
  verbose : Nat
deriving DecidableEq, Repr

/-- All-zero initial option state (C statics). -/
def opts0 : Opts := ⟨0, 0, 0, 0, 0, 0, 0, 0⟩

/-- What a run writes to `stdout`, piece by piece.  `header` and `footer`
are empty strings (lines 437-438), so their `fputs` calls write nothing. -/
inductive MainOut where
  | versionLine     -- printf("%s %s\n", LOGO, VERSION), line 523
  | helpText        -- info(stdout): banner and usage text, lines 1230-1251
  | licenseNote     -- fputs(licenseText, stdout), line 575
  | genBody (n : Int) (inv realIn realOut symmIn symmOut : Bool)
                    -- the fftGen call of line 578
deriving DecidableEq, Repr

/-- Result of a terminated run: exit code, `stdout` pieces, `stderr`
messages. -/
structure MainRes where
  exit : Nat
  outS : List MainOut
  errS : List String
deriving DecidableEq, Repr

/-- The usage text printed by `info` (lines 1234-1251). -/
def usageText : String :=
  "Usage: fftGen [option...]\n" ++
  "Options:\n" ++
  "Mandatory arguments to long options are mandatory for short options too.\n" ++
  " -n, --points NUMBER   Number of points, must be a power of 2.\n" ++
  " -i, --inverse         Generate code for inverse FFT.\n" ++
  " -r, --real-in-opt     Optimize for real only input.\n" ++
  " -o, --real-out-opt    Optimize for real only output.\n" ++
  " -m, --symm-in-opt     Optimize for symmetry at input sequence.\n" ++
  " -s, --symm-out-opt    Optimize for symmetry at output sequence.\n" ++
  " -l, --license         Write a GPL 3 note at the beginning of the code.\n" ++
  " -v, --verbose         Increase verbosity level.\n" ++
  "                       Verbose output is directed to stderr.\n" ++
  " -V, --version         Print version and exit.\n" ++
  " -h, --help            Print this info.\n" ++
  "Note that it is required to specify the number of data points by option -n\n" ++
  "or --points.\n" ++
  "Result is written to stdout\n"

def unknownOptMsg (s : String) : String :=
  "\nfftGen: Unknown option -" ++ s ++ "\n\n"

def unknownArgMsg (s : String) : String :=
  "\nfftGen: Unknown argument " ++ s ++ "\n\n"

def invalidArgMsg (s : String) : String :=
  "\nfftGen: Invalid option argument " ++ s ++ "\n\n"

/-- Line 629/658; the `strerror` text appended at runtime is
platform-specific and not modelled. -/
def allocMsg : String := "\nfftGen: Error allocating memory: "

/-- Decimal digits of a natural number (first argument is fuel, always
called with fuel > value). -/
def natChars : Nat → Nat → List Char
  | 0, _ => []
  | fuel + 1, n =>
    if n < 10 then [Char.ofNat ('0'.toNat + n)]
    else natChars fuel (n / 10) ++ [Char.ofNat ('0'.toNat + n % 10)]

/-- `%d` rendering of a C int. -/
def intStr (n : Int) : String :=
  match n with
  | .ofNat m => ⟨natChars (m + 1) m⟩
  | .negSucc m => ⟨'-' :: natChars (m + 2) (m + 1)⟩

/-- Bitwise AND of naturals (first argument is fuel; `landAux a a b`
computes `a & b` since `a` halves to `0` within `a` steps). -/
def landAux : Nat → Nat → Nat → Nat
  | 0, _, _ => 0
  | fuel + 1, a, b => a % 2 * (b % 2) + 2 * landAux fuel (a / 2) (b / 2)

def natLand (a b : Nat) : Nat := landAux a a b

/-- The power-of-two rejection test `n & (n-1)` of line 570, as a C `int`
operation: for negative `n` both `n` and `n-1` keep the sign bit, so the
two's-complement AND is negative, hence non-zero. -/
def nPow2Fail (n : Int) : Bool :=
  match n with
  | .ofNat m => natLand m (m - 1) != 0
  | .negSucc _ => true

/-- Result of `checkOptions` (lines 1090-1104) for one cursor position. -/
inductive COut where
  | notFound                            -- ret 0: no option matched
  | param (o : Opts) (usedNext : Bool)  -- ret 1: leave the short-option loop
  | shortBool (o : Opts)                -- ret -1: advance one character
  | errExit (msgs : List String)        -- info(stderr): exit(EXIT_FAILURE)

/-- The boolean options of the table (lines 479-485) in order: short name,
long name, counter increment. -/
def boolOpts : List (List Char × List Char × (Opts → Opts)) :=
  [("i".data, "-inverse".data, fun o => { o with inv := o.inv + 1 }),
   ("r".data, "-real-in-opt".data, fun o => { o with realIn := o.realIn + 1 }),
   ("o".data, "-real-out-opt".data, fun o => { o with realOut := o.realOut + 1 }),
   ("m".data, "-symm-in-opt".data, fun o => { o with symmIn := o.symmIn + 1 }),
   ("s".data, "-symm-out-opt".data, fun o => { o with symmOut := o.symmOut + 1 }),
   ("l".data, "-license".data, fun o => { o with license := o.license + 1 }),
   ("v".data, "-verbose".data, fun o => { o with verbose := o.verbose + 1 })]

/-- `checkOption` for a boolean option (fmt `NULL`), lines 1184-1204:
a short-name prefix match counts up and returns `-1`; an exact long-name
match counts up and returns `1`. -/
def tryBools (o : Opts) (cs : List Char) :
    List (List Char × List Char × (Opts → Opts)) → COut
  | [] => .notFound
  | (sh, lg, f) :: rest =>
    if lStarts cs sh then .shortBool (f o)
    else if cs == lg then .param (f o) false
    else tryBools o cs rest

/-- `checkOptions` over the whole table: the numeric `n`/`--points` option
first (lines 1171-1211), then the boolean options in table order.  When the
separate-argument form `-n NUM` finds no next argument, the C code prints
`argv[argc]`, which is the terminating `NULL` pointer (glibc renders it as
`(null)`). -/
def checkOptionsM (o : Opts) (cs : List Char) (next : Option (List Char)) :
    COut :=
  match tryNumFmts "n".data "-points".data cs with
  | some v => .param { o with n := v } false
  | none =>
    if cs == "n".data || cs == "-points".data then
      match next with
      | none => .errExit [invalidArgMsg "(null)", usageText]
      | some a =>
        match parseCInt a with
        | some v => .param { o with n := v } true
        | none => .errExit [invalidArgMsg ⟨a⟩, usageText]
    else
      tryBools o cs boolOpts

/-- The short-option character loop of lines 504-535 over one argument's
characters; `next` is the following command-line argument. -/
def procChars (o : Opts) : List Char → Option (List Char) →
    (Opts × Bool) ⊕ MainRes
  | [], _ => .inl (o, false)
  | c :: cs, next =>
    match checkOptionsM o (c :: cs) next with
    | .param o2 used => .inl (o2, used)
    | .shortBool o2 => procChars o2 cs next
    | .errExit msgs => .inr ⟨1, [], msgs⟩
    | .notFound =>
      -- lines 521-529: the built-in standard options
      if (c :: cs) == "-version".data || c == 'V' then
        .inr ⟨0, [.versionLine], []⟩
      else if (c :: cs) == "h".data || (c :: cs) == "-help".data || c == '?' then
        .inr ⟨0, [.helpText], []⟩
      else
        .inr ⟨1, [], [unknownOptMsg ⟨c :: cs⟩, usageText]⟩

/-- Result of the argument loop: parsed options or an early exit. -/
inductive PRes where
  | done (o : Opts)
  | exited (r : MainRes)
deriving DecidableEq, Repr

/-- The argument loop of lines 492-541.  The first argument is fuel, one
unit per command-line argument (each iteration consumes at least one). -/
def parseArgsF (o : Opts) : Nat → List String → PRes
  | _, [] => .done o
  | 0, _ :: _ => .done o
  | fuel + 1, a :: rest =>
    match a.data with
    | '-' :: c :: cs =>
      (match procChars o (c :: cs) ((rest.head?).map String.data) with
       | .inl (o2, used) => parseArgsF o2 fuel (if used then rest.drop 1 else rest)
       | .inr r => .exited r)
    | _ => .exited ⟨1, [], [unknownArgMsg a, usageText]⟩

def parseArgs (o : Opts) (args : List String) : PRes :=
  parseArgsF o args.length args

/-- The verbose report of lines 543-565 (all written to `stderr`). -/
def verboseLines (o : Opts) : List String :=
  if 0 < o.verbose then
    ("Number of points " ++ intStr o.n ++ "\n") ::
    (if 0 < o.inv then "Generating code for inverse FFT\n"
     else "Generating code for standard (not inverse) FFT\n") ::
    ((if 0 < o.realIn then ["Optimize for real only input\n"] else []) ++
     (if 0 < o.realOut then ["Optimize for real only output\n"] else []) ++
     (if 0 < o.symmIn then ["Optimize for symmetry at input\n"] else []) ++
     (if 0 < o.symmOut then ["Optimize for symmetry at output\n"] else []) ++
     (if 0 < o.license then ["Include a GPL 3 note into the code\n"] else []))
  else []

/-- Lines 543-583 plus the two `malloc` calls inside `fftGen` (627, 656),
whose success is an environment oracle `alloc1`/`alloc2`. -/
def runMain (alloc1 alloc2 : Bool) (o : Opts) : MainRes :=
  let vErr := verboseLines o
  if o.n == 0 then
    ⟨1, [], vErr ++ ["\nfftGen: No number of points specified.\n", usageText]⟩
  else if nPow2Fail o.n then
    ⟨1, [],
     vErr ++ ["\nfftGen: Number of points " ++ intStr o.n ++
              " is not a power of two.\n", usageText]⟩
  else
    let lic : List MainOut := if 0 < o.license then [.licenseNote] else []
    if !alloc1 then ⟨1, lic, vErr ++ [allocMsg]⟩
    else if !alloc2 then ⟨1, lic, vErr ++ [allocMsg]⟩
    else
      ⟨0,
       lic ++ [.genBody o.n (0 < o.inv) (0 < o.realIn) (0 < o.realOut)
                 (0 < o.symmIn) (0 < o.symmOut)],
       vErr⟩

/-- The whole program on an argument vector (`argv[1…]`). -/
def mainModel (alloc1 alloc2 : Bool) (args : List String) : MainRes :=
  match parseArgs opts0 args with
  | .exited r => r
  | .done o => runMain alloc1 alloc2 o

/-- Substring test over character lists. -/
def strHasSubL (sub : List Char) : List Char → Bool
  | [] => lStarts [] sub
  | c :: t => lStarts (c :: t) sub || strHasSubL sub t

/-- `sub` occurs as a contiguous substring of `s`. -/
def strHasSub (s sub : String) : Bool := strHasSubL sub.data s.data

/-! ## Definitions used by the claim statements -/

/-- The classification property claim C4 asserts of the thresholds (the
spec's wording, to be compared with `classify` over the code's `epsOf n`,
`epsOneOf n`, `epsMOneOf n`): ZERO iff `|w| ≤ eps`, PLUS_ONE iff
`w ≥ eps_one`, MINUS_ONE iff `w ≤ eps_minus_one`, otherwise POS or NEG by
the sign of `w`. -/
def SpecClassifyOk (n : Nat) : Prop :=
  ∀ w : ℝ,
    (classify w (epsOf n) (epsOneOf n) (epsMOneOf n) = WClass.zero ↔
      |w| ≤ epsOf n) ∧
    (classify w (epsOf n) (epsOneOf n) (epsMOneOf n) = WClass.plusOne ↔
      epsOneOf n ≤ w) ∧
    (classify w (epsOf n) (epsOneOf n) (epsMOneOf n) = WClass.minusOne ↔
      w ≤ epsMOneOf n) ∧
    (classify w (epsOf n) (epsOneOf n) (epsMOneOf n) = WClass.pos ↔
      (epsOf n < |w| ∧ epsMOneOf n < w ∧ w < epsOneOf n ∧ 0 ≤ w)) ∧
    (classify w (epsOf n) (epsOneOf n) (epsMOneOf n) = WClass.neg ↔
      (epsOf n < |w| ∧ epsMOneOf n < w ∧ w < epsOneOf n ∧ w < 0))

/-- The value a record writes at its `m` slot: the second emitted copy for
a symmetry record (line 800 with the conjugation test of lines 808-813),
the swapped partner otherwise. -/
def wvalM {α : Type} (n : Nat) (conj : α → α) (x : SwapRec) (A : Nat → α) : α :=
  if x.symmIn then
    (if n / 2 < x.mr then conj (A x.mr_new) else A x.mr_new)
  else A x.mr

/-- The value a record writes at its `mr` slot: the first emitted copy for
a symmetry record (line 799 with the conjugation test of lines 802-806),
the swapped partner otherwise. -/
def wvalMr {α : Type} (n : Nat) (conj : α → α) (x : SwapRec) (A : Nat → α) : α :=
  if x.symmIn then
    (if n / 2 < x.m then conj (A x.m_new) else A x.m_new)
  else A x.m

/-! ## Lemmas: bit reversal -/

theorem bitRev_lt (r : Nat) : ∀ m, bitRev r m < 2 ^ r := by
  induction r with
  | zero => intro m; simp [bitRev]
  | succ r ih =>
    intro m
    have h1 : m % 2 ≤ 1 := Nat.le_of_lt_succ (Nat.mod_lt m (by norm_num))
    have h2 := ih (m / 2)
    have : (m % 2) * 2 ^ r ≤ 2 ^ r := by
      calc (m % 2) * 2 ^ r ≤ 1 * 2 ^ r := Nat.mul_le_mul_right _ h1
      _ = 2 ^ r := one_mul _
    simp only [bitRev, pow_succ]
    omega

theorem bitRev_zero (r : Nat) : bitRev r 0 = 0 := by
  induction r with
  | zero => rfl
  | succ r ih => simp [bitRev, ih]

theorem bitRev_one (r : Nat) : bitRev (r + 1) 1 = 2 ^ r := by
  simp [bitRev, bitRev_zero]

theorem bitRev_all_ones (r : Nat) : bitRev r (2 ^ r - 1) = 2 ^ r - 1 := by
  induction r with
  | zero => rfl
  | succ r ih =>
    have h2 : (2:Nat) ^ (r + 1) = 2 ^ r * 2 := by rw [pow_succ]
    have hpos : 1 ≤ (2:Nat) ^ r := Nat.one_le_two_pow
    have hm : (2 ^ (r + 1) - 1) % 2 = 1 := by omega
    have hd : (2 ^ (r + 1) - 1) / 2 = 2 ^ r - 1 := by omega
    simp only [bitRev, hm, hd, ih]
    omega

/-- Decomposition of an (`r+1`)-bit reversal by the top target bit. -/
theorem bitRev_top (r : Nat) :
    ∀ m, m < 2 ^ (r + 1) →
      bitRev (r + 1) m = 2 * bitRev r (m % 2 ^ r) + m / 2 ^ r := by
  induction r with
  | zero =>
    intro m hm
    interval_cases m <;> rfl
  | succ r ih =>
    intro m hm
    have hp : (2:Nat) ^ (r + 2) = 2 * 2 ^ (r + 1) := by ring
    have hdiv : m / 2 < 2 ^ (r + 1) := by omega
    have e1 : m % 2 ^ (r + 1) % 2 = m % 2 := Nat.mod_mod_of_dvd m ⟨2 ^ r, by ring⟩
    have e2 : m % 2 ^ (r + 1) / 2 = m / 2 % 2 ^ r := by
      have h : (2:Nat) ^ (r + 1) = 2 * 2 ^ r := by ring
      rw [h, Nat.mod_mul_right_div_self]
    have e3 : m / 2 / 2 ^ r = m / 2 ^ (r + 1) := by
      rw [Nat.div_div_eq_div_mul]; congr 1; ring
    show (m % 2) * 2 ^ (r + 1) + bitRev (r + 1) (m / 2)
        = 2 * ((m % 2 ^ (r + 1) % 2) * 2 ^ r + bitRev r (m % 2 ^ (r + 1) / 2))
          + m / 2 ^ (r + 1)
    rw [ih (m / 2) hdiv, e1, e2, e3]
    ring

theorem bitRev_bitRev (r : Nat) : ∀ m, m < 2 ^ r → bitRev r (bitRev r m) = m := by
  induction r with
  | zero => intro m hm; interval_cases m; rfl
  | succ r ih =>
    intro m hm
    have hy : bitRev r (m / 2) < 2 ^ r := bitRev_lt r (m / 2)
    have hz : bitRev (r + 1) m < 2 ^ (r + 1) := bitRev_lt (r + 1) m
    have hmod : bitRev (r + 1) m % 2 ^ r = bitRev r (m / 2) := by
      show ((m % 2) * 2 ^ r + bitRev r (m / 2)) % 2 ^ r = _
      rw [add_comm, Nat.add_mul_mod_self_right, Nat.mod_eq_of_lt hy]
    have hdivz : bitRev (r + 1) m / 2 ^ r = m % 2 := by
      show ((m % 2) * 2 ^ r + bitRev r (m / 2)) / 2 ^ r = _
      rw [add_comm, Nat.add_mul_div_right _ _ (by positivity : (0:Nat) < 2 ^ r),
        Nat.div_eq_of_lt hy, zero_add]
    have hp : (2:Nat) ^ (r + 1) = 2 * 2 ^ r := by ring
    rw [bitRev_top r (bitRev (r + 1) m) hz, hmod, hdivz, ih (m / 2) (by omega)]
    omega

theorem bitRev_inj {r m₁ m₂ : Nat} (h₁ : m₁ < 2 ^ r) (h₂ : m₂ < 2 ^ r)
    (h : bitRev r m₁ = bitRev r m₂) : m₁ = m₂ := by
  rw [← bitRev_bitRev r m₁ h₁, h, bitRev_bitRev r m₂ h₂]

/-- The top bit of the reversal is the parity bit. -/
theorem two_pow_le_bitRev_iff (r m : Nat) :
    2 ^ r ≤ bitRev (r + 1) m ↔ m % 2 = 1 := by
  have hy : bitRev r (m / 2) < 2 ^ r := bitRev_lt r (m / 2)
  have hb : m % 2 = 0 ∨ m % 2 = 1 := Nat.mod_two_eq_zero_or_one m
  show 2 ^ r ≤ (m % 2) * 2 ^ r + bitRev r (m / 2) ↔ m % 2 = 1
  constructor
  · intro hle
    rcases hb with h | h
    · rw [h, zero_mul, zero_add] at hle; omega
    · exact h
  · intro h
    rw [h, one_mul]
    omega

theorem bitRev_eq_half_iff {r m : Nat} (hm : m < 2 ^ (r + 1)) :
    bitRev (r + 1) m = 2 ^ r ↔ m = 1 := by
  constructor
  · intro h
    exact bitRev_inj hm (by
      have := Nat.one_lt_two_pow_iff (n := r + 1) |>.2 (by omega)
      omega) (by rw [h, bitRev_one])
  · rintro rfl; exact bitRev_one r

/-! ## Lemmas: the Gold-Rader loop computes the reversed-counter increment -/

/-- Shifting the top bit out of `y` commutes with the halving loop. -/
theorem grHalveAux_shift (r : Nat) :
    ∀ fuel k y, 2 ^ r ≤ y → y < 2 ^ (r + 1) - 1 →
      grHalveAux (2 ^ (r + 1) - 1) y fuel k
        = grHalveAux (2 ^ r - 1) (y - 2 ^ r) fuel k := by
  intro fuel
  induction fuel with
  | zero => intro k y _ _; rfl
  | succ f ih =>
    intro k y h1 h2
    have hp : (2:Nat) ^ (r + 1) = 2 * 2 ^ r := by ring
    show (if 2 ^ (r + 1) - 1 < y + k / 2
          then grHalveAux (2 ^ (r + 1) - 1) y f (k / 2) else k / 2) = _
    by_cases hc : 2 ^ r - 1 < y - 2 ^ r + k / 2
    · rw [if_pos (by omega), ih (k / 2) y h1 h2]
      show _ = if 2 ^ r - 1 < y - 2 ^ r + k / 2
          then grHalveAux (2 ^ r - 1) (y - 2 ^ r) f (k / 2) else k / 2
      rw [if_pos hc]
    · rw [if_neg (by omega)]
      show _ = if 2 ^ r - 1 < y - 2 ^ r + k / 2
          then grHalveAux (2 ^ r - 1) (y - 2 ^ r) f (k / 2) else k / 2
      rw [if_neg hc]

/-- The halving loop started at `k = 2^r` stops at a power of two `2^i`, and
`mr % k + k` is then exactly the reversed-counter increment. -/
theorem grHalveAux_spec (r : Nat) :
    ∀ fuel, r ≤ fuel → ∀ y, 1 ≤ r → y < 2 ^ r - 1 →
      ∃ i, i < r ∧ grHalveAux (2 ^ r - 1) y fuel (2 ^ r) = 2 ^ i ∧
        y % 2 ^ i + 2 ^ i = revInc r y := by
  induction r with
  | zero => intro fuel _ y hr _; omega
  | succ r ih =>
    intro fuel hfuel y _ hy
    obtain ⟨f, rfl⟩ : ∃ f, fuel = f + 1 := ⟨fuel - 1, by omega⟩
    have hp : (2:Nat) ^ (r + 1) = 2 * 2 ^ r := by ring
    have hd : 2 ^ (r + 1) / 2 = 2 ^ r := by omega
    by_cases htop : y < 2 ^ r
    · refine ⟨r, by omega, ?_, ?_⟩
      · show (if 2 ^ (r + 1) - 1 < y + 2 ^ (r + 1) / 2
              then grHalveAux _ y f (2 ^ (r + 1) / 2) else 2 ^ (r + 1) / 2) = 2 ^ r
        rw [hd, if_neg (by omega)]
      · rw [Nat.mod_eq_of_lt htop]
        show _ = if y < 2 ^ r then y + 2 ^ r else revInc r (y - 2 ^ r)
        rw [if_pos htop]
    · have hr1 : 1 ≤ r := by
        rcases Nat.eq_zero_or_pos r with rfl | h
        · simp at hy htop; omega
        · exact h
      have step : grHalveAux (2 ^ (r + 1) - 1) y (f + 1) (2 ^ (r + 1))
          = grHalveAux (2 ^ r - 1) (y - 2 ^ r) f (2 ^ r) := by
        show (if 2 ^ (r + 1) - 1 < y + 2 ^ (r + 1) / 2
              then grHalveAux _ y f (2 ^ (r + 1) / 2) else 2 ^ (r + 1) / 2) = _
        rw [hd, if_pos (by omega), grHalveAux_shift r f (2 ^ r) y (by omega) hy]
      obtain ⟨i, hi, hval, hmod⟩ := ih f (by omega) (y - 2 ^ r) hr1 (by omega)
      refine ⟨i, by omega, by rw [step, hval], ?_⟩
      have hdvd : (2:Nat) ^ r = 2 ^ (r - i) * 2 ^ i := by
        rw [← pow_add]; congr 1; omega
      have hmody : y % 2 ^ i = (y - 2 ^ r) % 2 ^ i := by
        conv_lhs => rw [show y = (y - 2 ^ r) + 2 ^ (r - i) * 2 ^ i by omega]
        rw [Nat.add_mul_mod_self_right]
      rw [hmody, hmod]
      show _ = if y < 2 ^ r then y + 2 ^ r else revInc r (y - 2 ^ r)
      rw [if_neg htop]

/-- One Gold-Rader update (lines 675-679) is the reversed-counter increment. -/
theorem grNext_eq_revInc (r y : Nat) (hr : 1 ≤ r) (hy : y < 2 ^ r - 1) :
    grNext (2 ^ r - 1) y (2 ^ r) = revInc r y := by
  obtain ⟨i, _, hval, hmod⟩ :=
    grHalveAux_spec r (2 ^ r) (le_of_lt (Nat.lt_two_pow r)) y hr hy
  show y % grHalve (2 ^ r - 1) y (2 ^ r) + grHalve (2 ^ r - 1) y (2 ^ r) = _
  show y % grHalveAux (2 ^ r - 1) y (2 ^ r) (2 ^ r)
      + grHalveAux (2 ^ r - 1) y (2 ^ r) (2 ^ r) = _
  rw [hval]; exact hmod

/-- The reversed-counter increment tracks the bit reversal of an ordinary
increment. -/
theorem revInc_bitRev (r : Nat) :
    ∀ x, x + 1 < 2 ^ r → revInc r (bitRev r x) = bitRev r (x + 1) := by
  induction r with
  | zero => intro x hx; simp at hx
  | succ r ih =>
    intro x hx
    have hp : (2:Nat) ^ (r + 1) = 2 * 2 ^ r := by ring
    have hy : bitRev r (x / 2) < 2 ^ r := bitRev_lt r (x / 2)
    rcases Nat.mod_two_eq_zero_or_one x with hpar | hpar
    · have h0 : bitRev (r + 1) x = bitRev r (x / 2) := by
        show (x % 2) * 2 ^ r + bitRev r (x / 2) = _
        rw [hpar]; ring
      have h1 : (x + 1) % 2 = 1 := by omega
      have h2 : (x + 1) / 2 = x / 2 := by omega
      rw [h0]
      show revInc (r + 1) (bitRev r (x / 2))
          = ((x + 1) % 2) * 2 ^ r + bitRev r ((x + 1) / 2)
      rw [h1, h2]
      show (if bitRev r (x / 2) < 2 ^ r then bitRev r (x / 2) + 2 ^ r
            else revInc r (bitRev r (x / 2) - 2 ^ r)) = _
      rw [if_pos hy]; ring
    · have h0 : bitRev (r + 1) x = 2 ^ r + bitRev r (x / 2) := by
        show (x % 2) * 2 ^ r + bitRev r (x / 2) = _
        rw [hpar]; ring
      have hx2 : x / 2 + 1 < 2 ^ r := by omega
      have h1 : (x + 1) % 2 = 0 := by omega
      have h2 : (x + 1) / 2 = x / 2 + 1 := by omega
      rw [h0]
      show revInc (r + 1) (2 ^ r + bitRev r (x / 2))
          = ((x + 1) % 2) * 2 ^ r + bitRev r ((x + 1) / 2)
      rw [h1, h2]
      show (if 2 ^ r + bitRev r (x / 2) < 2 ^ r
            then 2 ^ r + bitRev r (x / 2) + 2 ^ r
            else revInc r (2 ^ r + bitRev r (x / 2) - 2 ^ r)) = _
      rw [if_neg (by omega), show 2 ^ r + bitRev r (x / 2) - 2 ^ r = bitRev r (x / 2) by omega,
        ih (x / 2) hx2]
      ring

/-- The Gold-Rader walk step: from `mr = bitRev r m` the loop computes
`bitRev r (m+1)`. -/
theorem grNext_bitRev (r m : Nat) (hr : 1 ≤ r) (hm : m + 1 ≤ 2 ^ r - 1) :
    grNext (2 ^ r - 1) (bitRev r m) (2 ^ r) = bitRev r (m + 1) := by
  have h1 : (1:Nat) ≤ 2 ^ r := Nat.one_le_two_pow
  have hmlt : m < 2 ^ r := by omega
  have hne : bitRev r m < 2 ^ r - 1 := by
    have hlt := bitRev_lt r m
    have : bitRev r m ≠ 2 ^ r - 1 := by
      intro h
      have := bitRev_inj hmlt (by omega : 2 ^ r - 1 < 2 ^ r)
        (by rw [h, bitRev_all_ones])
      omega
    omega
  rw [grNext_eq_revInc r _ hr hne, revInc_bitRev r m (by omega)]

/-! ## Lemmas: the walk enumerates exactly the bit-reversal pairs -/

theorem pairsUpTo_succ (r j : Nat) :
    pairsUpTo r (j + 1) = pairsUpTo r j ++
      (if j + 1 < bitRev r (j + 1) then [(j + 1, bitRev r (j + 1))] else []) := by
  unfold pairsUpTo
  rw [List.range'_concat, List.filterMap_append]
  congr 1
  have h1 : 1 + 1 * j = j + 1 := by omega
  rw [h1]
  by_cases h : j + 1 < bitRev r (j + 1) <;> simp [h]

theorem planWalk_upTo (r : Nat) (hr : 1 ≤ r) (symm : Bool) :
    ∀ j, j ≤ 2 ^ r - 1 →
      (List.range' 1 j).foldl
        (fun st m =>
          let mr := grNext (2 ^ r - 1) st.1 (2 ^ r)
          (mr, if m < mr then planAdd (2 ^ r) symm st.2 m mr else st.2))
        (0, [])
      = (bitRev r j, planFold (2 ^ r) symm (pairsUpTo r j)) := by
  intro j
  induction j with
  | zero => intro _; simp [pairsUpTo, planFold, bitRev_zero]
  | succ j ihj =>
    intro hj
    rw [List.range'_concat, List.foldl_append, ihj (by omega)]
    have h1 : 1 + 1 * j = j + 1 := by omega
    have hmr : grNext (2 ^ r - 1) (bitRev r j) (2 ^ r) = bitRev r (j + 1) :=
      grNext_bitRev r j hr hj
    rw [pairsUpTo_succ]
    unfold planFold
    rw [List.foldl_append]
    simp only [List.foldl, h1, hmr]
    by_cases h : j + 1 < bitRev r (j + 1) <;> simp [h]

theorem plan_eq_planFold (r : Nat) (symm : Bool) :
    plan (2 ^ r) symm = planFold (2 ^ r) symm (pairs r) := by
  rcases Nat.eq_zero_or_pos r with rfl | hr
  · rfl
  · show (planWalk (2 ^ r) symm).2 = _
    unfold planWalk
    rw [planWalk_upTo r hr symm (2 ^ r - 1) le_rfl]
    rfl

/-- Without the input-symmetry flag the planner just appends the standard
records in walk order. -/
theorem planFold_false (n : Nat) :
    ∀ (ps : List (Nat × Nat)) (acc : List SwapRec),
      ps.foldl (fun l p => planAdd n false l p.1 p.2) acc
        = acc ++ ps.map (fun p => ⟨p.1, p.2, 0, 0, false⟩) := by
  intro ps
  induction ps with
  | nil => intro acc; simp
  | cons p ps ih =>
    intro acc
    show ps.foldl _ (planAdd n false acc p.1 p.2) = _
    have h : planAdd n false acc p.1 p.2 = acc ++ [⟨p.1, p.2, 0, 0, false⟩] := by
      unfold planAdd; simp
    rw [h, ih, List.append_assoc]
    rfl

theorem plan_false_eq (r : Nat) :
    plan (2 ^ r) false
      = (pairs r).map (fun p => ⟨p.1, p.2, 0, 0, false⟩) := by
  rw [plan_eq_planFold r false]
  exact planFold_false (2 ^ r) (pairs r) []


/-! ## Lemmas: structure of the pair list -/

theorem mem_pairsUpTo {r j m mr : Nat} :
    (m, mr) ∈ pairsUpTo r j ↔ 1 ≤ m ∧ m < 1 + j ∧ mr = bitRev r m ∧ m < mr := by
  unfold pairsUpTo
  rw [List.mem_filterMap]
  constructor
  · rintro ⟨a, ha, hsome⟩
    by_cases hlt : a < bitRev r a
    · rw [if_pos hlt] at hsome
      obtain ⟨rfl, rfl⟩ : a = m ∧ bitRev r a = mr := by
        constructor <;> (cases hsome; rfl)
      have := List.mem_range'_1.1 ha
      exact ⟨this.1, this.2, rfl, hlt⟩
    · rw [if_neg hlt] at hsome
      cases hsome
  · rintro ⟨h1, h2, rfl, hlt⟩
    exact ⟨m, List.mem_range'_1.2 ⟨h1, h2⟩, by rw [if_pos hlt]⟩

theorem mem_pairs {r m mr : Nat} (h : (m, mr) ∈ pairs r) :
    1 ≤ m ∧ m < 2 ^ r ∧ mr = bitRev r m ∧ m < mr ∧ mr < 2 ^ r ∧
      bitRev r mr = m := by
  have h1 : (1:Nat) ≤ 2 ^ r := Nat.one_le_two_pow
  obtain ⟨ha, hb, hc, hd⟩ := mem_pairsUpTo.1 h
  have hm : m < 2 ^ r := by omega
  refine ⟨ha, hm, hc, hd, ?_, ?_⟩
  · rw [hc]; exact bitRev_lt r m
  · rw [hc, bitRev_bitRev r m hm]

/-- Each array index belongs to at most one candidate pair. -/
theorem pairs_unique {r : Nat} {p q : Nat × Nat} (hp : p ∈ pairs r)
    (hq : q ∈ pairs r) {i : Nat} (hip : p.1 = i ∨ p.2 = i)
    (hiq : q.1 = i ∨ q.2 = i) : p = q := by
  obtain ⟨pm, pr⟩ := p
  obtain ⟨qm, qr⟩ := q
  obtain ⟨_, hpm, hpr, hplt, hpmr, hpinv⟩ := mem_pairs hp
  obtain ⟨_, hqm, hqr, hqlt, hqmr, hqinv⟩ := mem_pairs hq
  simp only at hip hiq ⊢
  have key : pm = qm → (pm, pr) = (qm, qr) := by
    intro h
    have : pr = qr := by rw [hpr, hqr, h]
    rw [h, this]
  rcases hip with h1 | h1 <;> rcases hiq with h2 | h2
  · exact key (by omega)
  · -- pm = qr : then qm = bitRev r qr = bitRev r pm = pr > pm = qr > qm,
    -- contradicting qm < qr
    exfalso
    have e : qr = pm := by omega
    have : qm = pr := by rw [← hqinv, e, ← hpr]
    omega
  · exfalso
    have e : pr = qm := by omega
    have : pm = qr := by rw [← hpinv, e, ← hqr]
    omega
  · have e : pr = qr := by omega
    exact key (by
      have h3 := hpinv
      rw [e, hqinv] at h3
      omega)

theorem pairsUpTo_sorted (r : Nat) :
    ∀ j, (pairsUpTo r j).Pairwise (fun p q => p.1 < q.1) := by
  intro j
  induction j with
  | zero => simp [pairsUpTo]
  | succ j ih =>
    rw [pairsUpTo_succ]
    by_cases h : j + 1 < bitRev r (j + 1)
    · rw [if_pos h]
      rw [List.pairwise_append]
      refine ⟨ih, List.pairwise_singleton _ _, ?_⟩
      intro p hp q hq
      rcases List.mem_singleton.1 hq with rfl
      have := mem_pairsUpTo.1 (show (p.1, p.2) ∈ pairsUpTo r j by simpa using hp)
      omega
    · rw [if_neg h]
      simpa using ih

theorem pairs_sorted (r : Nat) : (pairs r).Pairwise (fun p q => p.1 < q.1) :=
  pairsUpTo_sorted r _

/-- When the pair list is nonempty its first element is `(1, n/2)`. -/
theorem pairs_head (r : Nat) {hd : Nat × Nat} {tl : List (Nat × Nat)}
    (h : pairs r = hd :: tl) : hd = (1, 2 ^ (r - 1)) := by
  rcases r with _ | r1
  · have h0 : pairs 0 = [] := by decide
    rw [h0] at h
    exact absurd h (by simp)
  rcases r1 with _ | r'
  · have h0 : pairs 1 = [] := by decide
    rw [h0] at h
    exact absurd h (by simp)
  · have h2 : (2:Nat) ≤ 2 ^ (r' + 2) := by
      calc (2:Nat) = 2 ^ 1 := rfl
      _ ≤ 2 ^ (r' + 2) := Nat.pow_le_pow_right (by norm_num) (by omega)
    have hsz : 2 ^ (r' + 2) - 1 = (2 ^ (r' + 2) - 2) + 1 := by omega
    have hc : 1 < 2 ^ (r' + 1) := Nat.one_lt_two_pow_iff.2 (by omega)
    have hf : (if 1 < bitRev (r' + 1 + 1) 1
          then some ((1:Nat), bitRev (r' + 1 + 1) 1) else none)
        = some (1, 2 ^ (r' + 1)) := by
      rw [bitRev_one, if_pos hc]
    unfold pairs pairsUpTo at h
    rw [hsz, List.range'_succ, List.filterMap_cons, hf] at h
    have h' : ((1:Nat), 2 ^ (r' + 1)) :: List.filterMap
        (fun m => if m < bitRev (r' + 1 + 1) m
          then some (m, bitRev (r' + 1 + 1) m) else none)
        (List.range' (1 + 1) (2 ^ (r' + 2) - 2)) = hd :: tl := h
    injection h' with h1 h2
    exact h1.symm

/-! ## Lemmas: the backward scan -/

theorem scanBackAux_succ (l : List SwapRec) (v i : Nat) :
    scanBackAux l v (i + 1)
      = if (l.getD (i + 1) default).m = v ∨ (l.getD (i + 1) default).mr = v
        then i + 1 else scanBackAux l v i := rfl

theorem scanBackAux_eq_zero {l : List SwapRec} {v : Nat} :
    ∀ i, scanBackAux l v i = 0 → ∀ j, 1 ≤ j → j ≤ i →
      ¬ ((l.getD j default).m = v ∨ (l.getD j default).mr = v) := by
  intro i
  induction i with
  | zero => intro _ j h1 h2 _; omega
  | succ i ih =>
    intro h0 j h1 h2
    rw [scanBackAux_succ] at h0
    by_cases hm : (l.getD (i + 1) default).m = v ∨ (l.getD (i + 1) default).mr = v
    · rw [if_pos hm] at h0; omega
    · rw [if_neg hm] at h0
      by_cases hj : j = i + 1
      · subst hj; exact hm
      · exact ih h0 j h1 (by omega)

theorem scanBackAux_pos {l : List SwapRec} {v : Nat} :
    ∀ i, 0 < scanBackAux l v i →
      1 ≤ scanBackAux l v i ∧ scanBackAux l v i ≤ i ∧
        ((l.getD (scanBackAux l v i) default).m = v ∨
          (l.getD (scanBackAux l v i) default).mr = v) := by
  intro i
  induction i with
  | zero => intro h; simp [scanBackAux] at h
  | succ i ih =>
    intro h
    rw [scanBackAux_succ] at h ⊢
    by_cases hm : (l.getD (i + 1) default).m = v ∨ (l.getD (i + 1) default).mr = v
    · rw [if_pos hm]
      rw [if_pos hm] at h
      exact ⟨by omega, le_rfl, hm⟩
    · rw [if_neg hm]
      rw [if_neg hm] at h
      obtain ⟨a, b, c⟩ := ih h
      exact ⟨a, by omega, c⟩

/-- A zero scan result together with a non-matching head means no record of
the list mentions `v`. -/
theorem scanBack_eq_zero_not_mem {l : List SwapRec} {v : Nat}
    (h0 : scanBack l v = 0)
    (hhead : ∀ x, l.head? = some x → ¬ (x.m = v ∨ x.mr = v)) :
    ∀ x ∈ l, ¬ (x.m = v ∨ x.mr = v) := by
  intro x hx hmatch
  obtain ⟨j, hj, hget⟩ := List.getElem_of_mem hx
  rcases Nat.eq_zero_or_pos j with rfl | hj1
  · have hh : l.head? = some x := by
      rcases l with _ | ⟨a, l'⟩
      · simp at hj
      · simp only [List.head?_cons]
        simp only [List.getElem_cons_zero] at hget
        rw [hget]
    exact hhead x hh hmatch
  · have hgetD : l.getD j default = x := by
      rw [List.getD_eq_getElem?_getD, List.getElem?_eq_getElem hj]
      simp [hget]
    have hz := scanBackAux_eq_zero (l := l) (v := v) (l.length - 1) h0 j hj1 (by omega)
    rw [hgetD] at hz
    exact hz hmatch

theorem scanBack_pos {l : List SwapRec} {v : Nat} (h : 0 < scanBack l v) :
    scanBack l v < l.length ∧
      ((l.getD (scanBack l v) default).m = v ∨
        (l.getD (scanBack l v) default).mr = v) := by
  unfold scanBack at h ⊢
  obtain ⟨h1, h2, h3⟩ := scanBackAux_pos (l := l) (v := v) (l.length - 1) h
  rcases l with _ | ⟨a, l'⟩
  · simp [scanBackAux] at h
  · refine ⟨?_, h3⟩
    simp only [List.length_cons] at h2 ⊢
    omega

theorem getD_mem_drop {l : List SwapRec} {p q : Nat} (hpq : p ≤ q)
    (hq : q < l.length) : l.getD q default ∈ l.drop p := by
  have hlen : q - p < (l.drop p).length := by
    rw [List.length_drop]; omega
  have he : (l.drop p)[q - p] = l[q] := by
    rw [List.getElem_drop]
    congr 1
    omega
  have hg : l.getD q default = l[q] := by
    rw [List.getD_eq_getElem?_getD, List.getElem?_eq_getElem hq]
    simp
  rw [hg, ← he]
  exact List.getElem_mem hlen

/-! ## Lemmas: parity facts for symmetry pairs -/

theorem two_pow_odd {k : Nat} (h : 2 ^ k % 2 = 1) : k = 0 := by
  rcases k with _ | k
  · rfl
  · rw [pow_succ, Nat.mul_mod_left] at h
    omega

theorem pairs_parity {r m mr : Nat} (h : (m, mr) ∈ pairs r) (hr : 1 ≤ r) :
    (2 ^ (r - 1) ≤ mr ↔ m % 2 = 1) ∧ (2 ^ (r - 1) ≤ m ↔ mr % 2 = 1) := by
  obtain ⟨r', rfl⟩ : ∃ r', r = r' + 1 := ⟨r - 1, by omega⟩
  obtain ⟨h1, h2, h3, h4, h5, h6⟩ := mem_pairs h
  constructor
  · rw [h3]
    exact (two_pow_le_bitRev_iff r' m)
  · rw [← h6]
    exact (two_pow_le_bitRev_iff r' mr)

/-- Facts about a candidate pair that takes the symmetry branch:
`mr` is strictly above `n/2`, `m` is odd and at least `3`, and both
replacement sources `n - mr` and (when applicable) `n - m` lie strictly
between `1` and `n/2`. -/
theorem pairs_symm_facts {r m mr : Nat} (h : (m, mr) ∈ pairs r)
    (hs : ¬ (m ≤ 2 ^ r / 2 ∧ mr ≤ 2 ^ r / 2)) :
    1 ≤ r ∧ 2 ^ r / 2 = 2 ^ (r - 1) ∧ 2 ^ (r - 1) < mr ∧ m % 2 = 1 ∧ 3 ≤ m ∧
      mr ≤ 2 ^ r - 2 ∧ 2 ≤ 2 ^ r - mr ∧ 2 ^ r - mr < 2 ^ (r - 1) ∧
      (m ≤ 2 ^ (r - 1) → m < 2 ^ (r - 1)) ∧
      (2 ^ (r - 1) < m → 2 ≤ 2 ^ r - m ∧ 2 ^ r - m < 2 ^ (r - 1)) := by
  have hr : 1 ≤ r := by
    by_contra hr0
    have : r = 0 := by omega
    subst this
    have : pairs 0 = [] := by decide
    rw [this] at h
    exact absurd h (List.not_mem_nil _)
  obtain ⟨r', rfl⟩ : ∃ r', r = r' + 1 := ⟨r - 1, by omega⟩
  obtain ⟨h1, h2, h3, h4, h5, h6⟩ := mem_pairs h
  have hpow : (2:Nat) ^ (r' + 1) = 2 * 2 ^ r' := by ring
  have hhalf : 2 ^ (r' + 1) / 2 = 2 ^ r' := by omega
  have hp1 : (1:Nat) ≤ 2 ^ r' := Nat.one_le_two_pow
  rw [hhalf] at hs
  -- mr > n/2 (if mr ≤ n/2 then both are)
  have hmr : 2 ^ r' < mr := by omega
  -- m is odd
  have hodd : m % 2 = 1 := by
    have := (pairs_parity h (by omega)).1
    simp only [Nat.add_sub_cancel] at this
    exact this.1 (by omega)
  -- m ≥ 3 : m = 1 would give mr = bitRev r 1 = n/2
  have hm3 : 3 ≤ m := by
    rcases Nat.lt_or_ge m 3 with hlt | hge
    · exfalso
      have hm1 : m = 1 := by omega
      rw [hm1, bitRev_one] at h3
      omega
    · exact hge
  -- mr ≤ n - 2 : mr = n - 1 would be a fixed point of the reversal
  have hmr2 : mr ≤ 2 ^ (r' + 1) - 2 := by
    rcases Nat.lt_or_ge mr (2 ^ (r' + 1) - 1) with hlt | hge
    · omega
    · exfalso
      have he : mr = 2 ^ (r' + 1) - 1 := by omega
      rw [he] at h6
      rw [bitRev_all_ones] at h6
      omega
  have e1 : (2:Nat) ^ (r' + 1 - 1) = 2 ^ r' := by congr 1
  refine ⟨by omega, by simpa using hhalf, hmr, hodd, hm3, hmr2, by omega, by omega, ?_, by omega⟩
  · intro hle
    rcases Nat.lt_or_ge m (2 ^ r') with hlt | hge
    · simpa using hlt
    · exfalso
      have he : m = 2 ^ r' := by omega
      have : 2 ^ r' % 2 = 1 := by rw [← he]; exact hodd
      have h0 := two_pow_odd this
      subst h0
      simp at he
      omega

/-! ## Lemmas: records and the pairs they come from -/

theorem mkRec_m (n m mr : Nat) : (mkRec n m mr).m = m := by
  unfold mkRec; split <;> rfl

theorem mkRec_mr (n m mr : Nat) : (mkRec n m mr).mr = mr := by
  unfold mkRec; split <;> rfl

theorem reads_mkRec_nonsymm {n m mr : Nat} (h : m ≤ n / 2 ∧ mr ≤ n / 2) :
    reads (mkRec n m mr) = [m, mr] := by
  have he : mkRec n m mr = ⟨m, mr, 0, 0, false⟩ := if_pos h
  rw [he]; rfl

theorem reads_mkRec_symm {n m mr : Nat} (h : ¬ (m ≤ n / 2 ∧ mr ≤ n / 2))
    (hmr : n / 2 < mr) :
    reads (mkRec n m mr) = [if n / 2 < m then n - m else m, n - mr] := by
  have he : mkRec n m mr
      = ⟨m, mr, if n / 2 < m then n - m else m,
          if n / 2 < mr then n - mr else mr, true⟩ := if_neg h
  rw [he, if_pos hmr]; rfl

theorem mem_of_perm_map {r : Nat} {ps : List (Nat × Nat)} {L : List SwapRec}
    (hperm : L.Perm (ps.map (fun p => mkRec (2 ^ r) p.1 p.2)))
    {x : SwapRec} (hx : x ∈ L) :
    (x.m, x.mr) ∈ ps ∧ x = mkRec (2 ^ r) x.m x.mr := by
  have hm := hperm.mem_iff.1 hx
  obtain ⟨p, hp, hpx⟩ := List.mem_map.1 hm
  have h1 : x.m = p.1 := by rw [← hpx, mkRec_m]
  have h2 : x.mr = p.2 := by rw [← hpx, mkRec_mr]
  constructor
  · rw [h1, h2]; simpa using hp
  · rw [h1, h2]; exact hpx.symm

theorem not_writes_of_unique {r : Nat} {ps : List (Nat × Nat)} {L : List SwapRec}
    (hperm : L.Perm (ps.map (fun p => mkRec (2 ^ r) p.1 p.2)))
    (hps : ∀ p ∈ ps, p ∈ pairs r)
    {c : Nat × Nat} (hc : c ∈ pairs r) (hcnot : c ∉ ps)
    {v : Nat} (hv : c.1 = v ∨ c.2 = v) :
    ∀ x ∈ L, ¬ Writes x v := by
  intro x hx hw
  obtain ⟨hxp, _⟩ := mem_of_perm_map hperm hx
  have he : (x.m, x.mr) = c := pairs_unique (hps _ hxp) hc hw hv
  exact hcnot (he ▸ hxp)

theorem nodup_of_inv {r : Nat} {ps : List (Nat × Nat)} {L : List SwapRec}
    (hperm : L.Perm (ps.map (fun p => mkRec (2 ^ r) p.1 p.2)))
    (hsort : ps.Pairwise (fun p q => p.1 < q.1)) : L.Nodup := by
  refine hperm.nodup_iff.2 ?_
  refine List.Pairwise.map _ ?_ hsort
  intro p q h
  intro he
  have : p.1 = q.1 := by
    have h1 := mkRec_m (2 ^ r) p.1 p.2
    have h2 := mkRec_m (2 ^ r) q.1 q.2
    rw [← h1, ← h2, he]
  omega

/-- No record already in the list reads from either index the new symmetry
record will write: earlier records read only their own (earlier) pair or
lower-half mirror sources, and a mirror source equal to `m` would force its
pair's walk index above `n/2` and hence above `m`, contradicting walk order. -/
theorem reads_avoid_current {r m mr : Nat} {ps : List (Nat × Nat)}
    {L : List SwapRec}
    (hperm : L.Perm (ps.map (fun p => mkRec (2 ^ r) p.1 p.2)))
    (hps : ∀ p ∈ ps, p ∈ pairs r)
    (horder : ∀ p ∈ ps, p.1 < m)
    (hc : (m, mr) ∈ pairs r)
    (hcs : ¬ (m ≤ 2 ^ r / 2 ∧ mr ≤ 2 ^ r / 2)) :
    ∀ y ∈ L, ∀ i ∈ reads y, ¬ (m = i ∨ mr = i) := by
  obtain ⟨hr, hhalf, hmrc, hmodd, hm3, hmr2, hs2lo, hs2hi, hmle, hmgt⟩ :=
    pairs_symm_facts hc hcs
  intro y hy i hi hmi
  obtain ⟨hyp, hye⟩ := mem_of_perm_map hperm hy
  have hpy : (y.m, y.mr) ∈ pairs r := hps _ hyp
  have hylt : y.m < m := horder _ hyp
  by_cases hsy : y.m ≤ 2 ^ r / 2 ∧ y.mr ≤ 2 ^ r / 2
  · -- y is a plain swap: it reads only its own pair
    rw [hye, reads_mkRec_nonsymm hsy] at hi
    have hiy : y.m = i ∨ y.mr = i := by
      rcases List.mem_cons.1 hi with h | h
      · exact Or.inl h.symm
      · exact Or.inr (List.mem_singleton.1 h).symm
    have he : (y.m, y.mr) = (m, mr) := pairs_unique hpy hc hiy hmi
    have : y.m = m := congrArg Prod.fst he
    omega
  · -- y is a symmetry record: it reads its lower-half sources
    obtain ⟨_, _, hymr, hyodd, hym3, hymr2, hys2lo, hys2hi, hymle, hymgt⟩ :=
      pairs_symm_facts hpy hsy
    rw [hye, reads_mkRec_symm hsy (by omega)] at hi
    rcases List.mem_cons.1 hi with hi1 | hi1
    · -- i is the m-source of y
      by_cases hbm : 2 ^ r / 2 < y.m
      · -- source is n - y.m < n/2, while both m and mr exceed n/2 here
        rw [if_pos hbm] at hi1
        have hb := hymgt (by omega)
        -- m > y.m > n/2 and mr > n/2, but i < n/2
        omega
      · -- source is y.m itself
        rw [if_neg hbm] at hi1
        rcases hmi with h | h
        · omega
        · have he : (y.m, y.mr) = (m, mr) :=
            pairs_unique hpy hc (Or.inl hi1.symm) (Or.inr h)
          have : y.m = m := congrArg Prod.fst he
          omega
    · -- i is the mr-source of y, i.e. n - y.mr
      have hi2 : i = 2 ^ r - y.mr := List.mem_singleton.1 hi1
      rcases hmi with h | h
      · -- m = n - y.mr
        by_cases hmhi : 2 ^ (r - 1) < m
        · omega
        · -- m ≤ n/2 and odd, so y.mr = n - m is odd, so y.m ≥ n/2;
          -- y.m odd forces y.m > n/2 > m > y.m, absurd
          have hneven : 2 ^ r = 2 * 2 ^ (r - 1) := by
            conv_lhs => rw [show r = (r - 1) + 1 by omega]
            ring
          have hymrodd : y.mr % 2 = 1 := by omega
          have hge : 2 ^ (r - 1) ≤ y.m := (pairs_parity hpy hr).2.2 hymrodd
          have hyne : y.m ≠ 2 ^ (r - 1) := by
            intro he
            have : 2 ^ (r - 1) % 2 = 1 := by rw [← he]; exact hyodd
            have h0 := two_pow_odd this
            rw [h0] at he
            simp at he
            omega
          omega
      · -- mr = n - y.mr is impossible: mr > n/2 while the source is below n/2
        omega

/-- Appending a record whose reads nothing in the list writes preserves the
invariant. -/
theorem append_inv (r : Nat) {ps : List (Nat × Nat)} {L : List SwapRec}
    {m mr : Nat}
    (hinv : PlanInv r ps L)
    (hfirst : ps = [] → m = 1 ∧ mr = 2 ^ (r - 1))
    (hreads : ∀ x ∈ L, ∀ i ∈ reads (mkRec (2 ^ r) m mr), ¬ Writes x i) :
    PlanInv r (ps ++ [(m, mr)]) (L ++ [mkRec (2 ^ r) m mr]) := by
  obtain ⟨hperm, hhead, hsafe⟩ := hinv
  refine ⟨?_, ?_, ?_⟩
  · rw [List.map_append]
    exact hperm.append (List.Perm.refl _)
  · intro x hx
    rcases L with _ | ⟨x0, L'⟩
    · have hpsnil : ps = [] := by
        have hlen := hperm.length_eq
        simp only [List.length_nil, List.length_map] at hlen
        exact List.length_eq_zero.1 hlen.symm
      obtain ⟨h1, h2⟩ := hfirst hpsnil
      have hx' : mkRec (2 ^ r) m mr = x := by simpa using hx
      rw [← hx', mkRec_m, mkRec_mr]
      exact ⟨h1, h2⟩
    · have hx' : x0 = x := by simpa using hx
      exact hhead x (by rw [← hx']; rfl)
  · unfold SafeList at hsafe ⊢
    rw [List.pairwise_append]
    refine ⟨hsafe, List.pairwise_singleton _ _, ?_⟩
    intro a ha b hb i hi
    rw [List.mem_singleton.1 hb] at hi
    exact hreads a ha i hi

/-- Inserting the new symmetry record strictly before every list position
that writes one of its sources preserves the invariant. -/
theorem insert_inv (r : Nat) {ps : List (Nat × Nat)} {L : List SwapRec}
    {m mr : Nat} {p : Nat}
    (hinv : PlanInv r ps L)
    (hc : (m, mr) ∈ pairs r)
    (hps : ∀ q ∈ ps, q ∈ pairs r)
    (horder : ∀ q ∈ ps, q.1 < m)
    (hcs : ¬ (m ≤ 2 ^ r / 2 ∧ mr ≤ 2 ^ r / 2))
    (hp1 : 1 ≤ p) (hpL : p < L.length)
    (htake : ∀ x ∈ L.take p, ∀ i ∈ reads (mkRec (2 ^ r) m mr), ¬ Writes x i) :
    PlanInv r (ps ++ [(m, mr)]) (insertAt L p (mkRec (2 ^ r) m mr)) := by
  obtain ⟨hperm, hhead, hsafe⟩ := hinv
  have hwrites := reads_avoid_current hperm hps horder hc hcs
  refine ⟨?_, ?_, ?_⟩
  · unfold insertAt
    have h1 : (L.take p ++ mkRec (2 ^ r) m mr :: L.drop p).Perm
        (mkRec (2 ^ r) m mr :: L) := by
      have h := @List.perm_middle _ (mkRec (2 ^ r) m mr)
        (L.take p) (L.drop p)
      rw [List.take_append_drop] at h
      exact h
    refine h1.trans ?_
    rw [List.map_append]
    refine (hperm.cons _).trans ?_
    exact (List.perm_append_singleton _ _).symm
  · intro x hx
    rcases L with _ | ⟨x0, L'⟩
    · simp at hpL
    · obtain ⟨p', rfl⟩ : ∃ p', p = p' + 1 := ⟨p - 1, by omega⟩
      unfold insertAt at hx
      rw [List.take_succ_cons] at hx
      have hx' : x0 = x := by simpa using hx
      exact hhead x (by rw [← hx']; rfl)
  · unfold SafeList at hsafe ⊢
    unfold insertAt
    rw [List.pairwise_append]
    have hsafe' : (L.take p ++ L.drop p).Pairwise
        (fun a b => ∀ i ∈ reads b, ¬ Writes a i) := by
      rw [List.take_append_drop]; exact hsafe
    rw [List.pairwise_append] at hsafe'
    obtain ⟨hs1, hs2, hs12⟩ := hsafe'
    refine ⟨hs1, ?_, ?_⟩
    · rw [List.pairwise_cons]
      refine ⟨?_, hs2⟩
      intro y hy i hi
      have hyL : y ∈ L := List.drop_subset _ _ hy
      have hni := hwrites y hyL i hi
      unfold Writes
      rw [mkRec_m, mkRec_mr]
      exact hni
    · intro a ha b hb
      rcases List.mem_cons.1 hb with rfl | hb'
      · intro i hi
        exact htake a ha i hi
      · exact hs12 a ha b hb'

/-! ## Lemmas: case analysis of `planAdd` under `symmIn` -/

theorem planAdd_true_nonsymm {n : Nat} {l : List SwapRec} {m mr : Nat}
    (h : m ≤ n / 2 ∧ mr ≤ n / 2) :
    planAdd n true l m mr = l ++ [⟨m, mr, 0, 0, false⟩] := by
  unfold planAdd
  rw [if_neg (by simp), if_pos h]

theorem planAdd_true_symm_lo {n : Nat} {l : List SwapRec} {m mr : Nat}
    (hns : ¬ (m ≤ n / 2 ∧ mr ≤ n / 2)) (hmr : n / 2 < mr) (hm : ¬ (n / 2 < m)) :
    planAdd n true l m mr
      = (if 0 < scanBack l (n - mr)
         then insertAt l (scanBack l (n - mr)) ⟨m, mr, m, n - mr, true⟩
         else l ++ [⟨m, mr, m, n - mr, true⟩]) := by
  unfold planAdd
  rw [if_neg (by simp), if_neg hns]
  simp only [if_pos hmr, if_neg hm]
  have hp : (if 0 < scanBack l (n - mr) ∧ 0 < (0:Nat)
      then min (scanBack l (n - mr)) 0
      else if 0 < (0:Nat) then (0:Nat) else scanBack l (n - mr))
      = scanBack l (n - mr) := by
    rw [if_neg (by simp), if_neg (by simp)]
  rw [hp]

theorem planAdd_true_symm_hi {n : Nat} {l : List SwapRec} {m mr : Nat}
    (hns : ¬ (m ≤ n / 2 ∧ mr ≤ n / 2)) (hmr : n / 2 < mr) (hm : n / 2 < m) :
    planAdd n true l m mr
      = (if 0 < (if 0 < scanBack l (n - mr) ∧ 0 < scanBack l (n - m)
                 then min (scanBack l (n - mr)) (scanBack l (n - m))
                 else if 0 < scanBack l (n - m) then scanBack l (n - m)
                 else scanBack l (n - mr))
         then insertAt l
            (if 0 < scanBack l (n - mr) ∧ 0 < scanBack l (n - m)
             then min (scanBack l (n - mr)) (scanBack l (n - m))
             else if 0 < scanBack l (n - m) then scanBack l (n - m)
             else scanBack l (n - mr)) ⟨m, mr, n - m, n - mr, true⟩
         else l ++ [⟨m, mr, n - m, n - mr, true⟩]) := by
  unfold planAdd
  rw [if_neg (by simp), if_neg hns]
  simp only [if_pos hmr, if_pos hm]

/-- One step of the planner fold preserves the invariant. -/
theorem planAdd_inv (r : Nat) {ps : List (Nat × Nat)} {L : List SwapRec}
    {m mr : Nat}
    (hinv : PlanInv r ps L)
    (hc : (m, mr) ∈ pairs r)
    (hps : ∀ q ∈ ps, q ∈ pairs r)
    (horder : ∀ q ∈ ps, q.1 < m)
    (hsort : ps.Pairwise (fun p q => p.1 < q.1))
    (hfirst : ps = [] → m = 1 ∧ mr = 2 ^ (r - 1)) :
    PlanInv r (ps ++ [(m, mr)]) (planAdd (2 ^ r) true L m mr) := by
  have hcnot : (m, mr) ∉ ps := fun hmem => absurd (horder _ hmem) (lt_irrefl m)
  by_cases hns : m ≤ 2 ^ r / 2 ∧ mr ≤ 2 ^ r / 2
  · rw [planAdd_true_nonsymm hns]
    have he : (⟨m, mr, 0, 0, false⟩ : SwapRec) = mkRec (2 ^ r) m mr :=
      (if_pos hns).symm
    rw [he]
    apply append_inv r hinv hfirst
    intro x hx i hi
    rw [reads_mkRec_nonsymm hns] at hi
    refine not_writes_of_unique hinv.1 hps hc hcnot ?_ x hx
    rcases List.mem_cons.1 hi with rfl | h
    · exact Or.inl rfl
    · exact Or.inr (List.mem_singleton.1 h).symm
  · obtain ⟨hr, hhalf, hmrc, hmodd, hm3, hmr2, hs2lo, hs2hi, hmle, hmgt⟩ :=
      pairs_symm_facts hc hns
    have hmrhalf : 2 ^ r / 2 < mr := by omega
    have hheadok : ∀ v : Nat, 2 ≤ v → v < 2 ^ (r - 1) →
        ∀ x, L.head? = some x → ¬ (x.m = v ∨ x.mr = v) := by
      intro v hv2 hvh x hxh hvm
      obtain ⟨h1, h2⟩ := hinv.2.1 x hxh
      omega
    have hmiss : ∀ v : Nat, scanBack L v = 0 → 2 ≤ v → v < 2 ^ (r - 1) →
        ∀ x ∈ L, ¬ Writes x v := by
      intro v hscan hv2 hvh x hx
      exact scanBack_eq_zero_not_mem hscan (hheadok v hv2 hvh) x hx
    have hfound : ∀ v : Nat, 0 < scanBack L v → ∀ p, p ≤ scanBack L v →
        ∀ x ∈ L.take p, ¬ Writes x v := by
      intro v hpos p hple x hx hw
      obtain ⟨hlt, hmatch⟩ := scanBack_pos hpos
      have hwmem : L.getD (scanBack L v) default ∈ L.drop p := getD_mem_drop hple hlt
      have hwL : L.getD (scanBack L v) default ∈ L := List.drop_subset _ _ hwmem
      have hxL : x ∈ L := List.take_subset _ _ hx
      obtain ⟨hxp, hxe⟩ := mem_of_perm_map hinv.1 hxL
      obtain ⟨hwp, hwe⟩ := mem_of_perm_map hinv.1 hwL
      have hpe : ((x.m, x.mr) : Nat × Nat)
          = ((L.getD (scanBack L v) default).m, (L.getD (scanBack L v) default).mr) :=
        pairs_unique (hps _ hxp) (hps _ hwp) hw hmatch
      have hxw : x = L.getD (scanBack L v) default := by
        rw [hxe, hwe, show x.m = (L.getD (scanBack L v) default).m from
            congrArg Prod.fst hpe,
          show x.mr = (L.getD (scanBack L v) default).mr from congrArg Prod.snd hpe]
      have hnodup : L.Nodup := nodup_of_inv hinv.1 hsort
      have hnd : (L.take p ++ L.drop p).Nodup := by
        rw [List.take_append_drop]; exact hnodup
      exact List.disjoint_of_nodup_append hnd hx (hxw ▸ hwmem)
    by_cases hm : 2 ^ r / 2 < m
    · -- both indices above n/2: sources are n - m and n - mr
      obtain ⟨hq1a, hq1b⟩ := hmgt (by omega)
      rw [planAdd_true_symm_hi hns hmrhalf hm]
      have hrec : (⟨m, mr, 2 ^ r - m, 2 ^ r - mr, true⟩ : SwapRec)
          = mkRec (2 ^ r) m mr := by
        unfold mkRec
        rw [if_neg hns, if_pos hmrhalf, if_pos hm]
      have hreads : reads (mkRec (2 ^ r) m mr) = [2 ^ r - m, 2 ^ r - mr] := by
        rw [reads_mkRec_symm hns hmrhalf, if_pos hm]
      by_cases hp2 : 0 < scanBack L (2 ^ r - mr)
      · by_cases hp1 : 0 < scanBack L (2 ^ r - m)
        · have hand : 0 < scanBack L (2 ^ r - mr) ∧ 0 < scanBack L (2 ^ r - m) :=
            ⟨hp2, hp1⟩
          rw [if_pos hand, if_pos (lt_min hp2 hp1), hrec]
          refine insert_inv r hinv hc hps horder hns (lt_min hp2 hp1) ?_ ?_
          · obtain ⟨hl2, _⟩ := scanBack_pos hp2
            have := min_le_left (scanBack L (2 ^ r - mr)) (scanBack L (2 ^ r - m))
            omega
          · intro x hx i hi
            rw [hreads] at hi
            rcases List.mem_cons.1 hi with rfl | hi'
            · exact hfound _ hp1 _ (min_le_right _ _) x hx
            · rw [List.mem_singleton.1 hi']
              exact hfound _ hp2 _ (min_le_left _ _) x hx
        · have hand : ¬ (0 < scanBack L (2 ^ r - mr) ∧ 0 < scanBack L (2 ^ r - m)) :=
            fun h => hp1 h.2
          rw [if_neg hand, if_neg hp1, if_pos hp2, hrec]
          refine insert_inv r hinv hc hps horder hns hp2 ?_ ?_
          · exact (scanBack_pos hp2).1
          · intro x hx i hi
            rw [hreads] at hi
            rcases List.mem_cons.1 hi with rfl | hi'
            · have hz : scanBack L (2 ^ r - m) = 0 := by omega
              exact hmiss _ hz (by omega) (by omega) x (List.take_subset _ _ hx)
            · rw [List.mem_singleton.1 hi']
              exact hfound _ hp2 _ le_rfl x hx
      · by_cases hp1 : 0 < scanBack L (2 ^ r - m)
        · have hand : ¬ (0 < scanBack L (2 ^ r - mr) ∧ 0 < scanBack L (2 ^ r - m)) :=
            fun h => hp2 h.1
          rw [if_neg hand, if_pos hp1, if_pos hp1, hrec]
          refine insert_inv r hinv hc hps horder hns hp1 ?_ ?_
          · exact (scanBack_pos hp1).1
          · intro x hx i hi
            rw [hreads] at hi
            rcases List.mem_cons.1 hi with rfl | hi'
            · exact hfound _ hp1 _ le_rfl x hx
            · rw [List.mem_singleton.1 hi']
              have hz : scanBack L (2 ^ r - mr) = 0 := by omega
              exact hmiss _ hz (by omega) (by omega) x (List.take_subset _ _ hx)
        · have hand : ¬ (0 < scanBack L (2 ^ r - mr) ∧ 0 < scanBack L (2 ^ r - m)) :=
            fun h => hp2 h.1
          rw [if_neg hand, if_neg hp1, if_neg hp2, hrec]
          refine append_inv r hinv hfirst ?_
          intro x hx i hi
          rw [hreads] at hi
          rcases List.mem_cons.1 hi with rfl | hi'
          · have hz : scanBack L (2 ^ r - m) = 0 := by omega
            exact hmiss _ hz (by omega) (by omega) x hx
          · rw [List.mem_singleton.1 hi']
            have hz : scanBack L (2 ^ r - mr) = 0 := by omega
            exact hmiss _ hz (by omega) (by omega) x hx
    · -- m at or below n/2: sources are m itself and n - mr
      rw [planAdd_true_symm_lo hns hmrhalf hm]
      have hrec : (⟨m, mr, m, 2 ^ r - mr, true⟩ : SwapRec)
          = mkRec (2 ^ r) m mr := by
        unfold mkRec
        rw [if_neg hns, if_pos hmrhalf, if_neg hm]
      have hreads : reads (mkRec (2 ^ r) m mr) = [m, 2 ^ r - mr] := by
        rw [reads_mkRec_symm hns hmrhalf, if_neg hm]
      have hmself : ∀ x ∈ L, ¬ Writes x m :=
        not_writes_of_unique hinv.1 hps hc hcnot (Or.inl rfl)
      by_cases hp2 : 0 < scanBack L (2 ^ r - mr)
      · rw [if_pos hp2, hrec]
        refine insert_inv r hinv hc hps horder hns hp2 ?_ ?_
        · exact (scanBack_pos hp2).1
        · intro x hx i hi
          rw [hreads] at hi
          rcases List.mem_cons.1 hi with rfl | hi'
          · exact hmself x (List.take_subset _ _ hx)
          · rw [List.mem_singleton.1 hi']
            exact hfound _ hp2 _ le_rfl x hx
      · rw [if_neg hp2, hrec]
        refine append_inv r hinv hfirst ?_
        intro x hx i hi
        rw [hreads] at hi
        rcases List.mem_cons.1 hi with rfl | hi'
        · exact hmself x hx
        · rw [List.mem_singleton.1 hi']
          have hz : scanBack L (2 ^ r - mr) = 0 := by omega
          exact hmiss _ hz (by omega) (by omega) x hx

/-- The invariant holds after folding any prefix of the pair list. -/
theorem planFold_inv (r : Nat) :
    ∀ ps : List (Nat × Nat), (∃ qs, pairs r = ps ++ qs) →
      PlanInv r ps (planFold (2 ^ r) true ps) := by
  intro ps
  induction ps using List.reverseRecOn with
  | nil =>
    intro _
    refine ⟨by simp [planFold], ?_, ?_⟩
    · intro x hx
      simp [planFold] at hx
    · simp [planFold, SafeList]
  | append_singleton ps c ih =>
    rintro ⟨qs, hsplit⟩
    have hIH := ih ⟨c :: qs, by rw [hsplit]; simp⟩
    have hsorted := pairs_sorted r
    rw [hsplit] at hsorted
    have h1 := (List.pairwise_append.1 hsorted).1
    have h2 := List.pairwise_append.1 h1
    obtain ⟨cm, cmr⟩ := c
    have hmemps : ∀ q ∈ ps, q ∈ pairs r := by
      intro q hq
      rw [hsplit]
      exact List.mem_append_left _ (List.mem_append_left _ hq)
    have hc : ((cm, cmr) : Nat × Nat) ∈ pairs r := by
      rw [hsplit]
      exact List.mem_append_left _ (List.mem_append_right _ (List.mem_singleton_self _))
    have horder : ∀ q ∈ ps, q.1 < cm := by
      intro q hq
      exact h2.2.2 q hq (cm, cmr) (List.mem_singleton_self _)
    have hfirst : ps = [] → cm = 1 ∧ cmr = 2 ^ (r - 1) := by
      intro hnil
      subst hnil
      have : pairs r = (cm, cmr) :: qs := by rw [hsplit]; simp
      have he := pairs_head r this
      constructor
      · exact congrArg Prod.fst he
      · exact congrArg Prod.snd he
    have hfold : planFold (2 ^ r) true (ps ++ [(cm, cmr)])
        = planAdd (2 ^ r) true (planFold (2 ^ r) true ps) cm cmr := by
      unfold planFold
      rw [List.foldl_append]
      rfl
    rw [hfold]
    exact planAdd_inv r hIH hc hmemps horder h2.1 hfirst

/-- The full planner invariant for the `symmIn` plan. -/
theorem plan_symm_inv (r : Nat) : PlanInv r (pairs r) (plan (2 ^ r) true) := by
  rw [plan_eq_planFold]
  exact planFold_inv r (pairs r) ⟨[], by simp⟩

/-- Read/write safety of the reordered planner output (claim C2's key form). -/
theorem plan_symm_safe (r : Nat) : SafeList (plan (2 ^ r) true) :=
  (plan_symm_inv r).2.2

/-! ## Shape of the records produced by the planner -/

/-- Any record in `planAdd`'s output is an old record, the plain record for
`(m, mr)`, or a symmetry record for `(m, mr)`. -/
theorem planAdd_mem_cases {n : Nat} {symm : Bool} {l : List SwapRec}
    {m mr : Nat} {x : SwapRec} (hx : x ∈ planAdd n symm l m mr) :
    x ∈ l ∨ x = ⟨m, mr, 0, 0, false⟩ ∨ ∃ mn mrn, x = ⟨m, mr, mn, mrn, true⟩ := by
  unfold planAdd at hx
  by_cases hs : ¬ symm
  · rw [if_pos hs] at hx
    rcases List.mem_append.1 hx with h | h
    · exact Or.inl h
    · exact Or.inr (Or.inl (List.mem_singleton.1 h))
  · rw [if_neg hs] at hx
    by_cases hlo : m ≤ n / 2 ∧ mr ≤ n / 2
    · rw [if_pos hlo] at hx
      rcases List.mem_append.1 hx with h | h
      · exact Or.inl h
      · exact Or.inr (Or.inl (List.mem_singleton.1 h))
    · rw [if_neg hlo] at hx
      simp only [] at hx
      repeat' split at hx
      all_goals
        first
        | (unfold insertAt at hx
           rcases List.mem_append.1 hx with h | h
           · exact Or.inl (List.take_subset _ _ h)
           · rcases List.mem_cons.1 h with h' | h'
             · exact Or.inr (Or.inr ⟨_, _, h'⟩)
             · exact Or.inl (List.drop_subset _ _ h'))
        | (rcases List.mem_append.1 hx with h | h
           · exact Or.inl h
           · exact Or.inr (Or.inr ⟨_, _, List.mem_singleton.1 h⟩))

/-- Fold preservation helper. -/
theorem foldl_preserve {σ : Type} {β : Type} {P : σ → Prop} (f : σ → β → σ)
    (hf : ∀ s a, P s → P (f s a)) :
    ∀ (L : List β) (s : σ), P s → P (L.foldl f s) := by
  intro L
  induction L with
  | nil => intro s hs; exact hs
  | cons a L ih => intro s hs; exact ih _ (hf s a hs)

/-- Every record of every plan is either a plain record with zeroed source
fields or a symmetry record. -/
theorem plan_all {P : SwapRec → Prop} (n : Nat) (symm : Bool)
    (h0 : ∀ m mr, P ⟨m, mr, 0, 0, false⟩)
    (h1 : ∀ m mr mn mrn, P ⟨m, mr, mn, mrn, true⟩) :
    ∀ x ∈ plan n symm, P x := by
  have := foldl_preserve
    (fun (st : Nat × List SwapRec) m =>
      let mr := grNext (n - 1) st.1 n
      (mr, if m < mr then planAdd n symm st.2 m mr else st.2))
    (P := fun st => ∀ x ∈ st.2, P x)
    (by
      intro s a hs
      simp only []
      by_cases h : a < grNext (n - 1) s.1 n
      · rw [if_pos h]
        intro x hx
        rcases planAdd_mem_cases hx with h' | h' | ⟨mn, mrn, h'⟩
        · exact hs x h'
        · exact h' ▸ h0 _ _
        · exact h' ▸ h1 _ _ _ _
      · rw [if_neg h]; exact hs)
    (List.range' 1 (n - 1)) (0, []) (by intro x hx; cases hx)
  exact this


/-! ## Claim C9: source-index fields of non-symmetry records -/

/-- C9 (counterexample): the original wording — `m_src == m` and
`mr_src == mr` on every `use_symm = false` record — fails already for
`n = 4` without the symmetry option: the single record is
`⟨1, 2, 0, 0, false⟩`, whose source fields keep their zero initialization
(lines 661-666) instead of equalling `m = 1`, `mr = 2`. -/
theorem C9_counterexample :
    ¬ (∀ (n : Nat) (symm : Bool), ∀ x ∈ plan n symm,
        x.symmIn = false → x.m_new = x.m ∧ x.mr_new = x.mr) := by
  intro h
  have hmem : (⟨1, 2, 0, 0, false⟩ : SwapRec) ∈ plan 4 false := by decide
  have := (h 4 false _ hmem rfl).1
  exact absurd this (by decide)

/-- C9 (amended): in every swap record produced by the planner whose
`use_symm` flag is false, the source-index fields keep their zero
initialization: `m_src = 0` and `mr_src = 0` (lines 661-666 initialize the
array, and the non-symmetry branches at lines 686-689 and 695-696 never
touch the source fields). -/
theorem C9_nonsymm_sources :
    ∀ (n : Nat) (symm : Bool), ∀ x ∈ plan n symm,
      x.symmIn = false → x.m_new = 0 ∧ x.mr_new = 0 := by
  intro n symm
  refine plan_all n symm ?_ ?_
  · intro m mr _; exact ⟨rfl, rfl⟩
  · intro m mr mn mrn h; cases h

/-- C9 (witness): the amended theorem applied to the `n = 4` record. -/
theorem C9_witness :
    (⟨1, 2, 0, 0, false⟩ : SwapRec) ∈ plan 4 false ∧
      (⟨1, 2, 0, 0, false⟩ : SwapRec).m_new = 0 ∧
      (⟨1, 2, 0, 0, false⟩ : SwapRec).mr_new = 0 :=
  ⟨by decide, C9_nonsymm_sources 4 false _ (by decide) rfl⟩

/-! ## Claim C6: behaviour at n = 1 -/

/-- C6 (counterexample): with `n = 1` the run does exit successfully, but
the generated body is not empty: the permutation stage's unconditional
`putchar('\n')` of line 817 is executed, so exactly one blank line reaches
`stdout` inside the generated body. -/
theorem C6_counterexample :
    (mainModel true true ["-n", "1"]).exit = 0 ∧
    fftGenStmts 1 false false false false false = [Stmt.blank] ∧
    ¬ (∀ (inv realIn realOut symmIn symmOut : Bool),
        fftGenStmts 1 inv realIn realOut symmIn symmOut = []) := by
  refine ⟨by decide, rfl, fun h => ?_⟩
  exact List.cons_ne_nil _ _ (h false false false false false)

/-- C6 (amended): invoked with `n = 1` and any flag combination the
generator runs to completion and exits successfully, and the emitted body
consists of exactly one blank line (the `putchar` of line 817) — nothing
else — preceded on `stdout` only by the license banner when the license
flag was requested. -/
theorem C6_n1 :
    ∀ (i ri ro si so lic vb : Nat) (inv realIn realOut symmIn symmOut : Bool),
      (runMain true true ⟨1, i, ri, ro, si, so, lic, vb⟩).exit = 0 ∧
      (runMain true true ⟨1, i, ri, ro, si, so, lic, vb⟩).outS
        = (if 0 < lic then [MainOut.licenseNote] else [])
          ++ [MainOut.genBody 1 (0 < i) (0 < ri) (0 < ro) (0 < si) (0 < so)] ∧
      fftGenStmts 1 inv realIn realOut symmIn symmOut = [Stmt.blank] := by
  intro i ri ro si so lic vb inv realIn realOut symmIn symmOut
  refine ⟨rfl, rfl, ?_⟩
  cases symmIn <;> rfl

/-! ## Claim C10: stdout does not depend on the verbose flag -/

/-- C10: for fixed option values, two runs that differ only in the verbosity
counter write the same pieces to `stdout` and exit with the same code; the
verbose report of lines 543-565 goes only to `stderr`, and `fftGen` is not
passed the verbosity at all (line 578). -/
theorem C10_verbose_independent :
    ∀ (a1 a2 : Bool) (o : Opts) (v1 v2 : Nat),
      (runMain a1 a2 { o with verbose := v1 }).outS
          = (runMain a1 a2 { o with verbose := v2 }).outS ∧
      (runMain a1 a2 { o with verbose := v1 }).exit
          = (runMain a1 a2 { o with verbose := v2 }).exit := by
  intro a1 a2 o v1 v2
  rcases o with ⟨n, i, ri, ro, si, so, lic, vb⟩
  simp only [runMain]
  by_cases hn : (n == 0) = true <;> simp only [hn, if_true, if_false, Bool.false_eq_true]
  · exact ⟨trivial, trivial⟩
  · by_cases hp : nPow2Fail n = true <;> simp only [hp, if_true, if_false, Bool.false_eq_true]
    · exact ⟨trivial, trivial⟩
    · cases a1 <;> cases a2 <;> exact ⟨rfl, rfl⟩

/-! ## Claim C7: exit codes and diagnostics -/

/-- The boolean-option scan never reaches `info(stderr)`. -/
theorem tryBools_no_err (o : Opts) (cs : List Char) :
    ∀ (L : List (List Char × List Char × (Opts → Opts))) (msgs : List String),
      tryBools o cs L ≠ .errExit msgs := by
  intro L
  induction L with
  | nil => intro msgs h; cases h
  | cons hd tl ih =>
    intro msgs h
    obtain ⟨sh, lg, f⟩ := hd
    unfold tryBools at h
    split at h
    · cases h
    · split at h
      · cases h
      · exact ih msgs h

/-- Every `info(stderr)` exit of `checkOption` carries a diagnostic. -/
theorem checkOptionsM_err {o : Opts} {cs : List Char}
    {next : Option (List Char)} {msgs : List String}
    (h : checkOptionsM o cs next = .errExit msgs) : msgs ≠ [] := by
  unfold checkOptionsM at h
  split at h
  · cases h
  · split at h
    · split at h
      · injection h with h'; subst h'; simp
      · split at h
        · cases h
        · injection h with h'; subst h'; simp
    · exact absurd h (tryBools_no_err o cs boolOpts msgs)

/-- Every error exit of the short-option loop carries a diagnostic. -/
theorem procChars_err :
    ∀ (cs : List Char) (o : Opts) (next : Option (List Char)) (r : MainRes),
      procChars o cs next = .inr r → r.exit ≠ 0 → r.errS ≠ [] := by
  intro cs
  induction cs with
  | nil => intro o next r h; cases h
  | cons c cs ih =>
    intro o next r h hne
    unfold procChars at h
    split at h
    · cases h
    · exact ih _ _ _ h hne
    · injection h with h'; subst h'
      exact checkOptionsM_err (by assumption)
    · split at h
      · injection h with h'; subst h'; exact absurd rfl hne
      · split at h
        · injection h with h'; subst h'; exact absurd rfl hne
        · injection h with h'; subst h'; simp

/-- Every error exit of the argument loop carries a diagnostic. -/
theorem parseArgsF_err :
    ∀ (fuel : Nat) (o : Opts) (args : List String) (r : MainRes),
      parseArgsF o fuel args = .exited r → r.exit ≠ 0 → r.errS ≠ [] := by
  intro fuel
  induction fuel with
  | zero =>
    intro o args r h
    cases args with
    | nil => cases h
    | cons a rest => cases h
  | succ f ih =>
    intro o args r h hne
    cases args with
    | nil => cases h
    | cons a rest =>
      unfold parseArgsF at h
      split at h
      · split at h
        · exact ih _ _ _ h hne
        · injection h with h'; subst h'
          exact procChars_err _ _ _ _ (by assumption) hne
      · injection h with h'; subst h'; simp

/-- Every error exit of the post-parse phase carries a diagnostic. -/
theorem runMain_err (a1 a2 : Bool) (o : Opts) :
    (runMain a1 a2 o).exit ≠ 0 → (runMain a1 a2 o).errS ≠ [] := by
  unfold runMain
  split
  · intro _; simp
  · split
    · intro _; simp
    · cases a1 <;> cases a2 <;> intro h <;> simp_all

/-- C7: the program exits non-zero with a diagnostic on `stderr` on every
erroneous invocation — missing `n` (line 566), `n` not a power of two
(line 570, diagnostic mentioning "power of two"), unknown option (line 532),
unknown argument (line 538), missing option argument (line 1206 with
`*pi == argc`), unparseable option argument (line 1206), or
memory-allocation failure (lines 627-631, 656-660) — and exits with the
success code on clean generation. -/
theorem C7_error_handling :
    (∀ (a1 a2 : Bool) (args : List String),
        (mainModel a1 a2 args).exit ≠ 0 → (mainModel a1 a2 args).errS ≠ []) ∧
    ((mainModel true true []).exit = 1 ∧ (mainModel true true []).errS ≠ []) ∧
    ((mainModel true true ["-n", "3"]).exit = 1 ∧
      (mainModel true true ["-n", "3"]).errS.any
        (fun s => strHasSub s "power of two") = true) ∧
    ((mainModel true true ["-q"]).exit = 1 ∧
      (mainModel true true ["-q"]).errS ≠ []) ∧
    ((mainModel true true ["foo"]).exit = 1 ∧
      (mainModel true true ["foo"]).errS ≠ []) ∧
    ((mainModel true true ["-n"]).exit = 1 ∧
      (mainModel true true ["-n"]).errS ≠ []) ∧
    ((mainModel true true ["-n", "x"]).exit = 1 ∧
      (mainModel true true ["-n", "x"]).errS ≠ []) ∧
    ((mainModel false true ["-n", "4"]).exit = 1 ∧
      (mainModel false true ["-n", "4"]).errS ≠ []) ∧
    ((mainModel true false ["-n", "4"]).exit = 1 ∧
      (mainModel true false ["-n", "4"]).errS ≠ []) ∧
    ((mainModel true true ["-n", "4"]).exit = 0 ∧
      (mainModel true true ["--points=8", "-i", "-r", "-m"]).exit = 0 ∧
      (mainModel true true ["-n", "16", "-v"]).exit = 0) := by
  refine ⟨?_, by decide, by decide, by decide, by decide, by decide, by decide,
    by decide, by decide, by decide⟩
  intro a1 a2 args
  unfold mainModel
  cases hp : parseArgs opts0 args with
  | done o => simp only []; exact runMain_err a1 a2 o
  | exited r =>
    simp only []
    exact parseArgsF_err args.length opts0 args r hp

/-! ## Claim C8: the zero-imaginary tracker -/

/-- `tr = …` lines carry no `xi` assignment. -/
theorem trAssign_noXi {α : Type} (o : Option (Rhs α)) :
    ∀ s ∈ trAssign o, xiAssignIdx s = (none : Option Nat) := by
  cases o <;> simp [trAssign, xiAssignIdx]

/-- `ti = …` lines carry no `xi` assignment. -/
theorem tiAssign_noXi {α : Type} (skip : Bool) (o : Option (Rhs α)) :
    ∀ s ∈ tiAssign skip o, xiAssignIdx s = (none : Option Nat) := by
  cases skip <;> cases o <;> simp [tiAssign, xiAssignIdx]

/-- `xr[ii] += tr;` carries no `xi` assignment. -/
theorem xrAccumOut_noXi {α : Type} (ii : Nat) (trz : Bool) :
    ∀ s ∈ xrAccumOut α ii trz, xiAssignIdx s = (none : Option Nat) := by
  cases trz <;> simp [xrAccumOut, xiAssignIdx]

/-- The `xi[jj]` block never clears a set tracker entry. -/
theorem jjOut_keep {α : Type} {n ii jj : Nat} {ri ro so la trz tiz : Bool}
    {nzi : Nat → Bool} {i : Nat} (h : nzi i = true) :
    (jjOut α n ii jj ri ro so la trz tiz nzi).2 i = true := by
  simp only [jjOut]
  repeat' split
  all_goals simp [Function.update_apply, h]

/-- A clear tracker entry becomes set in the `xi[jj]` block exactly when
the block emits a not-provably-zero `xi` assignment to it. -/
theorem jjOut_char {α : Type} {n ii jj : Nat} {ri ro so la trz tiz : Bool}
    {nzi : Nat → Bool} {i : Nat} (h : nzi i = false) :
    ((jjOut α n ii jj ri ro so la trz tiz nzi).2 i = true ↔
      ∃ s ∈ (jjOut α n ii jj ri ro so la trz tiz nzi).1,
        xiAssignIdx s = some i) := by
  simp only [jjOut]
  repeat' split
  all_goals simp [Function.update_apply, h, xiAssignIdx, eq_comm]

/-- The `xi[ii]` block never clears a set tracker entry. -/
theorem iiOut_keep {α : Type} {ii : Nat} {ri ro la tiz : Bool}
    {nz : Nat → Bool} {i : Nat} (h : nz i = true) :
    (iiOut α ii ri ro la tiz nz).2 i = true := by
  simp only [iiOut]
  repeat' split
  all_goals simp [Function.update_apply, h]

/-- A clear tracker entry becomes set in the `xi[ii]` block exactly when
the block emits a not-provably-zero `xi` assignment to it. -/
theorem iiOut_char {α : Type} {ii : Nat} {ri ro la tiz : Bool}
    {nz : Nat → Bool} {i : Nat} (h : nz i = false) :
    ((iiOut α ii ri ro la tiz nz).2 i = true ↔
      ∃ s ∈ (iiOut α ii ri ro la tiz nz).1, xiAssignIdx s = some i) := by
  simp only [iiOut]
  repeat' split
  all_goals simp [Function.update_apply, h, xiAssignIdx, eq_comm]
  all_goals (intro he; subst he; simp_all)

/-- C8: `nzi` starts all-zero under `realIn` and all-one otherwise
(lines 633-637); one butterfly emission never clears a set entry, and an
entry that was clear becomes set exactly when the butterfly emits an
assignment to that `xi` element of a value not provably zero (every `xi`
write except `xi[_] = 0.0;`). -/
theorem C8_nzi_tracker :
    (∀ i : Nat, nziInit true i = false) ∧
    (∀ i : Nat, nziInit false i = true) ∧
    (∀ (eps epsOne epsMOne wr wi : ℝ) (n ii jj : Nat)
        (realIn realOut symmOut last : Bool) (nzi : Nat → Bool) (i : Nat),
      (nzi i = true →
        (butterfly eps epsOne epsMOne wr wi n ii jj
            realIn realOut symmOut last nzi).2 i = true) ∧
      (nzi i = false →
        ((butterfly eps epsOne epsMOne wr wi n ii jj
            realIn realOut symmOut last nzi).2 i = true ↔
          ∃ s ∈ (butterfly eps epsOne epsMOne wr wi n ii jj
              realIn realOut symmOut last nzi).1,
            xiAssignIdx s = some i))) := by
  refine ⟨fun i => rfl, fun i => rfl, ?_⟩
  intro eps epsOne epsMOne wr wi n ii jj realIn realOut symmOut last nzi i
  have hb2 : (butterfly eps epsOne epsMOne wr wi n ii jj
      realIn realOut symmOut last nzi).2
      = (iiOut ℝ ii realIn realOut last
          (tiRhs eps epsOne epsMOne wr wi jj (nzi jj)).isNone
          (jjOut ℝ n ii jj realIn realOut symmOut last
            (trRhs eps epsOne epsMOne wr wi jj (nzi jj)).isNone
            (tiRhs eps epsOne epsMOne wr wi jj (nzi jj)).isNone nzi).2).2 := rfl
  have hb1 : (butterfly eps epsOne epsMOne wr wi n ii jj
      realIn realOut symmOut last nzi).1
      = trAssign (trRhs eps epsOne epsMOne wr wi jj (nzi jj))
        ++ tiAssign (realOut && last) (tiRhs eps epsOne epsMOne wr wi jj (nzi jj))
        ++ (jjOut ℝ n ii jj realIn realOut symmOut last
            (trRhs eps epsOne epsMOne wr wi jj (nzi jj)).isNone
            (tiRhs eps epsOne epsMOne wr wi jj (nzi jj)).isNone nzi).1
        ++ xrAccumOut ℝ ii (trRhs eps epsOne epsMOne wr wi jj (nzi jj)).isNone
        ++ (iiOut ℝ ii realIn realOut last
            (tiRhs eps epsOne epsMOne wr wi jj (nzi jj)).isNone
            (jjOut ℝ n ii jj realIn realOut symmOut last
              (trRhs eps epsOne epsMOne wr wi jj (nzi jj)).isNone
              (tiRhs eps epsOne epsMOne wr wi jj (nzi jj)).isNone nzi).2).1 := rfl
  rw [hb2, hb1]
  constructor
  · intro hT
    exact iiOut_keep (jjOut_keep hT)
  · intro hF
    constructor
    · intro hT
      by_cases h3 : (jjOut ℝ n ii jj realIn realOut symmOut last
          (trRhs eps epsOne epsMOne wr wi jj (nzi jj)).isNone
          (tiRhs eps epsOne epsMOne wr wi jj (nzi jj)).isNone nzi).2 i = true
      · obtain ⟨s, hs, hsi⟩ := (jjOut_char hF).1 h3
        exact ⟨s, by simp [hs], hsi⟩
      · have h3f : (jjOut ℝ n ii jj realIn realOut symmOut last
            (trRhs eps epsOne epsMOne wr wi jj (nzi jj)).isNone
            (tiRhs eps epsOne epsMOne wr wi jj (nzi jj)).isNone nzi).2 i = false := by
          simpa using h3
        obtain ⟨s, hs, hsi⟩ := (iiOut_char h3f).1 hT
        exact ⟨s, by simp [hs], hsi⟩
    · rintro ⟨s, hs, hsi⟩
      simp only [List.mem_append] at hs
      rcases hs with ((((hs | hs) | hs) | hs) | hs)
      · rw [trAssign_noXi _ s hs] at hsi; cases hsi
      · rw [tiAssign_noXi _ _ s hs] at hsi; cases hsi
      · exact iiOut_keep ((jjOut_char hF).2 ⟨s, hs, hsi⟩)
      · rw [xrAccumOut_noXi _ _ s hs] at hsi; cases hsi
      · by_cases h3 : (jjOut ℝ n ii jj realIn realOut symmOut last
            (trRhs eps epsOne epsMOne wr wi jj (nzi jj)).isNone
            (tiRhs eps epsOne epsMOne wr wi jj (nzi jj)).isNone nzi).2 i = true
        · exact iiOut_keep h3
        · have h3f : (jjOut ℝ n ii jj realIn realOut symmOut last
              (trRhs eps epsOne epsMOne wr wi jj (nzi jj)).isNone
              (tiRhs eps epsOne epsMOne wr wi jj (nzi jj)).isNone nzi).2 i = false := by
            simpa using h3
          exact (iiOut_char h3f).2 ⟨s, hs, hsi⟩

/-! ## Claim C4: the threshold classification -/

/-- With `0 ≤ eps < epsOne` and `epsMOne = -epsOne`, the comparison ladder
satisfies the claimed biconditionals. -/
theorem classify_spec {eps epsOne : ℝ} (h0 : 0 ≤ eps) (h1 : eps < epsOne)
    (w : ℝ) :
    (classify w eps epsOne (-epsOne) = WClass.zero ↔ |w| ≤ eps) ∧
    (classify w eps epsOne (-epsOne) = WClass.plusOne ↔ epsOne ≤ w) ∧
    (classify w eps epsOne (-epsOne) = WClass.minusOne ↔ w ≤ -epsOne) ∧
    (classify w eps epsOne (-epsOne) = WClass.pos ↔
      (eps < |w| ∧ -epsOne < w ∧ w < epsOne ∧ 0 ≤ w)) ∧
    (classify w eps epsOne (-epsOne) = WClass.neg ↔
      (eps < |w| ∧ -epsOne < w ∧ w < epsOne ∧ w < 0)) := by
  by_cases hz : eps < |w|
  · by_cases hp : w < epsOne
    · by_cases hm : -epsOne < w
      · by_cases hs : 0 ≤ w
        · have hns : ¬ w < 0 := not_lt.2 hs
          have hnz : ¬ |w| ≤ eps := not_le.2 hz
          have hnp : ¬ epsOne ≤ w := not_le.2 hp
          have hnm : ¬ w ≤ -epsOne := not_le.2 hm
          simp [classify, hz, hp, hm, hs, hns, hnz, hnp, hnm]
        · have hw : w < 0 := not_le.1 hs
          have hnz : ¬ |w| ≤ eps := not_le.2 hz
          have hnp : ¬ epsOne ≤ w := not_le.2 hp
          have hnm : ¬ w ≤ -epsOne := not_le.2 hm
          simp [classify, hz, hp, hm, hs, hw, hnz, hnp, hnm]
      · have hw : w ≤ -epsOne := not_lt.1 hm
        have hnz : ¬ |w| ≤ eps := not_le.2 hz
        have hnp : ¬ epsOne ≤ w := not_le.2 (lt_of_le_of_lt hw (by linarith))
        simp [classify, hz, hp, hm, hw, hnz, hnp]
    · have hw : epsOne ≤ w := not_lt.1 hp
      have hnz : ¬ |w| ≤ eps := not_le.2 hz
      have hnm : ¬ w ≤ -epsOne := not_le.2 (by linarith : -epsOne < w)
      simp [classify, hz, hp, hw, hnz, hnm]
  · have hw : |w| ≤ eps := not_lt.1 hz
    have habs1 : w ≤ eps := le_trans (le_abs_self w) hw
    have habs2 : -eps ≤ w := by have := neg_abs_le w; linarith
    have hnp : ¬ epsOne ≤ w := not_le.2 (by linarith)
    have hnm : ¬ w ≤ -epsOne := not_le.2 (by linarith)
    simp [classify, hz, hw, hnp, hnm]

/-- C4 (counterexample): the claimed biconditionals fail for `n = 4`: there
`eps = 0.5·sin(π/2) = 1/2` equals `eps_one = 1 - 0.5·(1 - cos(π/2)) = 1/2`,
so `w = 1/2` satisfies both "ZERO iff `|w| ≤ eps`" and the right side of
"PLUS_ONE iff `w ≥ eps_one`" although the ladder classifies it ZERO. -/
theorem C4_counterexample :
    ¬ (∀ r : Nat, 1 ≤ r → SpecClassifyOk (2 ^ r)) := by
  intro h
  have h4 : SpecClassifyOk 4 := by
    have h2 := h 2 (by norm_num)
    norm_num at h2
    exact h2
  have he : epsOf 4 = 1 / 2 := by
    simp only [epsOf]
    norm_num [Real.sin_pi_div_two]
  have ho : epsOneOf 4 = 1 / 2 := by
    simp only [epsOneOf]
    norm_num [Real.cos_pi_div_two]
  have hcz : classify (1 / 2 : ℝ) (epsOf 4) (epsOneOf 4) (epsMOneOf 4)
      = WClass.zero :=
    (h4 (1 / 2)).1.2 (by rw [he, abs_le]; norm_num)
  have hcp : classify (1 / 2 : ℝ) (epsOf 4) (epsOneOf 4) (epsMOneOf 4)
      = WClass.plusOne :=
    (h4 (1 / 2)).2.1.2 ho.le
  rw [hcz] at hcp
  cases hcp

/-- C4 (amended): `eps_minus_one` is exactly `-eps_one`, and for every
power of two `n ≥ 8` the ladder classifies every real `w` as the claim
states; for `n = 2` and `n = 4` the thresholds collide (`eps = eps_one`)
and the biconditionals fail. -/
theorem C4_thresholds :
    (∀ n : Nat, epsMOneOf n = -(epsOneOf n)) ∧
    (∀ r : Nat, 3 ≤ r → SpecClassifyOk (2 ^ r)) := by
  constructor
  · intro n; simp only [epsMOneOf, epsOneOf]; ring
  · intro r hr
    have hhalf : (2 ^ r : Nat) / 2 = 2 ^ (r - 1) := by
      have h2 : (2 : Nat) ^ r = 2 ^ (r - 1) * 2 := by
        conv_lhs => rw [show r = (r - 1) + 1 by omega]
        rw [pow_succ]
      rw [h2, Nat.mul_div_cancel _ (by norm_num)]
    set x : ℝ := ((2 ^ r / 2 : Nat) : ℝ) with hx
    have hx4 : (4 : ℝ) ≤ x := by
      rw [hx, hhalf]
      have h4 : (4 : Nat) ≤ 2 ^ (r - 1) := by
        calc (4 : Nat) = 2 ^ 2 := by norm_num
        _ ≤ 2 ^ (r - 1) := Nat.pow_le_pow_right (by norm_num) (by omega)
      exact_mod_cast h4
    have hx0 : (0 : ℝ) < x := by linarith
    set θ : ℝ := Real.pi / x with hθ
    have hθ0 : 0 < θ := div_pos Real.pi_pos hx0
    have hθ4 : θ ≤ Real.pi / 4 := by
      rw [hθ, div_le_div_iff₀ hx0 (by norm_num)]
      nlinarith [Real.pi_pos, hx4]
    have hθhalf : θ < Real.pi / 2 :=
      lt_of_le_of_lt hθ4 (by linarith [Real.pi_pos])
    have hcos : 0 < Real.cos θ :=
      Real.cos_pos_of_mem_Ioo ⟨by linarith [Real.pi_pos], hθhalf⟩
    have hsin0 : 0 ≤ Real.sin θ :=
      Real.sin_nonneg_of_nonneg_of_le_pi hθ0.le (by linarith [Real.pi_pos])
    have hsin1 : Real.sin θ ≤ 1 := Real.sin_le_one θ
    have h0 : 0 ≤ epsOf (2 ^ r) := by
      simp only [epsOf]
      rw [← hx, ← hθ]
      linarith
    have h1 : epsOf (2 ^ r) < epsOneOf (2 ^ r) := by
      simp only [epsOf, epsOneOf]
      rw [← hx, ← hθ]
      nlinarith [hcos, hsin1]
    have hmeq : epsMOneOf (2 ^ r) = -(epsOneOf (2 ^ r)) := by
      simp only [epsMOneOf, epsOneOf]; ring
    intro w
    rw [hmeq]
    exact classify_spec h0 h1 w

/-- C4 (witness): the amended statement instantiated at `n = 8`. -/
theorem C4_witness : SpecClassifyOk (2 ^ 3) :=
  C4_thresholds.2 3 (by norm_num)

/-! ## Claim C5: ranges of the emitted numeric literals -/

/-- The algebraic relation between the two one-side thresholds
(lines 606-607). -/
theorem epsMOneOf_eq_neg (n : Nat) : epsMOneOf n = -(epsOneOf n) := by
  simp only [epsMOneOf, epsOneOf]; ring

/-- Literals emitted for one first summand lie strictly between the
thresholds. -/
theorem wTerm_lits {α : Type} [LinearOrderedField α]
    {eps epsOne w : α} {x : Var} {j : Nat} (h1 : eps < |w|) :
    ∀ v ∈ termLits (wTerm epsOne (-epsOne) w x j),
      eps < |v| ∧ |v| < epsOne := by
  intro v hv
  simp only [wTerm] at hv
  split at hv
  · split at hv
    · simp only [termLits, List.mem_singleton] at hv
      subst hv
      exact ⟨h1, abs_lt.2 ⟨by assumption, by assumption⟩⟩
    · simp [termLits] at hv
  · simp [termLits] at hv

/-- Literals of an emitted `tr` right-hand side lie strictly between the
thresholds. -/
theorem trRhs_lits {α : Type} [LinearOrderedField α]
    {eps epsOne wr wi : α} {jj : Nat} {nzjj : Bool} {e : Rhs α}
    (h : trRhs eps epsOne (-epsOne) wr wi jj nzjj = some e) :
    ∀ v ∈ rhsLits e, eps < |v| ∧ |v| < epsOne := by
  intro v hv
  by_cases hwr0 : eps < |wr| <;>
    by_cases hwic : eps < |wi| ∧ nzjj = true <;>
      by_cases hwi1 : wi < epsOne <;>
        by_cases hwi2 : -epsOne < wi <;>
          by_cases hwi3 : (0 : α) ≤ wi
  all_goals first
    | (simp only [trRhs] at h
       simp [hwr0, hwic, hwi1, hwi2, hwi3] at h
       subst h
       simp only [rhsLits, termLits, List.mem_append, List.mem_cons,
         List.mem_singleton, List.not_mem_nil, or_false, false_or] at hv
       first
         | exact hv.elim
         | (rcases hv with hv | rfl
            · exact wTerm_lits hwr0 v hv
            · first
              | exact ⟨hwic.1, abs_lt.2 ⟨hwi2, hwi1⟩⟩
              | exact ⟨by rw [abs_neg]; exact hwic.1,
                  by rw [abs_neg]; exact abs_lt.2 ⟨hwi2, hwi1⟩⟩)
         | (subst hv
            first
              | exact ⟨hwic.1, abs_lt.2 ⟨hwi2, hwi1⟩⟩
              | exact ⟨by rw [abs_neg]; exact hwic.1,
                  by rw [abs_neg]; exact abs_lt.2 ⟨hwi2, hwi1⟩⟩)
         | exact wTerm_lits hwr0 v hv)
    | (simp only [trRhs] at h
       simp [hwr0, hwic, hwi1, hwi2, hwi3] at h
       subst h
       simp only [rhsLits, termLits, List.mem_append, List.mem_cons,
         List.mem_singleton, List.not_mem_nil, or_false, false_or] at hv)
    | (simp only [trRhs] at h
       simp [hwr0, hwic, hwi1, hwi2, hwi3] at h)

/-- Literals of an emitted `ti` right-hand side lie strictly between the
thresholds. -/
theorem tiRhs_lits {α : Type} [LinearOrderedField α]
    {eps epsOne wr wi : α} {jj : Nat} {nzjj : Bool} {e : Rhs α}
    (h : tiRhs eps epsOne (-epsOne) wr wi jj nzjj = some e) :
    ∀ v ∈ rhsLits e, eps < |v| ∧ |v| < epsOne := by
  intro v hv
  by_cases hwr0 : eps < |wr| ∧ nzjj = true <;>
    by_cases hwic : eps < |wi| <;>
      by_cases hwi1 : wi < epsOne <;>
        by_cases hwi2 : -epsOne < wi <;>
          by_cases hwi3 : (0 : α) ≤ wi
  all_goals first
    | (simp only [tiRhs] at h
       simp [hwr0, hwic, hwi1, hwi2, hwi3] at h
       subst h
       simp only [rhsLits, termLits, List.mem_append, List.mem_cons,
         List.mem_singleton, List.not_mem_nil, or_false, false_or] at hv
       first
         | exact hv.elim
         | (rcases hv with hv | rfl
            · exact wTerm_lits hwr0.1 v hv
            · first
              | exact ⟨hwic, abs_lt.2 ⟨hwi2, hwi1⟩⟩
              | exact ⟨by rw [abs_neg]; exact hwic,
                  by rw [abs_neg]; exact abs_lt.2 ⟨hwi2, hwi1⟩⟩)
         | (subst hv
            exact ⟨hwic, abs_lt.2 ⟨hwi2, hwi1⟩⟩)
         | exact wTerm_lits hwr0.1 v hv)
    | (simp only [tiRhs] at h
       simp [hwr0, hwic, hwi1, hwi2, hwi3] at h
       subst h
       simp only [rhsLits, termLits, List.mem_append, List.mem_cons,
         List.mem_singleton, List.not_mem_nil, or_false, false_or] at hv)
    | (simp only [tiRhs] at h
       simp [hwr0, hwic, hwi1, hwi2, hwi3] at h)

/-- The `xr`/`xi` element writes of the `xi[jj]` block carry no literals. -/
theorem jjOut_noLits {α : Type} {n ii jj : Nat} {a b c d trz tiz : Bool}
    {nzi : Nat → Bool} :
    ∀ s ∈ (jjOut α n ii jj a b c d trz tiz nzi).1, stmtLits s = ([] : List α) := by
  intro s hs
  simp only [jjOut] at hs
  repeat' split at hs
  all_goals simp only [List.mem_cons, List.mem_singleton, List.not_mem_nil,
    or_false] at hs
  all_goals first
    | exact hs.elim
    | (rcases hs with rfl | rfl <;> rfl)
    | (subst hs; rfl)

/-- The `xi[ii]` block carries no literals. -/
theorem iiOut_noLits {α : Type} {ii : Nat} {a b c tiz : Bool}
    {nz : Nat → Bool} :
    ∀ s ∈ (iiOut α ii a b c tiz nz).1, stmtLits s = ([] : List α) := by
  intro s hs
  simp only [iiOut] at hs
  repeat' split at hs
  all_goals simp only [List.mem_cons, List.mem_singleton, List.not_mem_nil,
    or_false] at hs
  all_goals first
    | exact hs.elim
    | (rcases hs with rfl | rfl <;> rfl)
    | (subst hs; rfl)

/-- `xr[ii] += tr;` carries no literals. -/
theorem xrAccumOut_noLits {α : Type} {ii : Nat} {trz : Bool} :
    ∀ s ∈ xrAccumOut α ii trz, stmtLits s = ([] : List α) := by
  intro s hs
  simp only [xrAccumOut] at hs
  split at hs
  · exact absurd hs (List.not_mem_nil s)
  · simp only [List.mem_singleton] at hs; subst hs; rfl

/-- Every literal of one butterfly's statements lies strictly between the
thresholds. -/
theorem butterfly_lits {eps epsOne wr wi : ℝ} {n ii jj : Nat}
    {ri ro so la : Bool} {nzi : Nat → Bool} :
    ∀ s ∈ (butterfly eps epsOne (-epsOne) wr wi n ii jj ri ro so la nzi).1,
      ∀ v ∈ stmtLits s, eps < |v| ∧ |v| < epsOne := by
  intro s hs v hv
  simp only [butterfly, List.mem_append] at hs
  rcases hs with ((((hs | hs) | hs) | hs) | hs)
  · -- trAssign
    cases htr : trRhs eps epsOne (-epsOne) wr wi jj (nzi jj) with
    | none => rw [htr] at hs; exact absurd hs (List.not_mem_nil s)
    | some e =>
      rw [htr] at hs
      simp only [trAssign, List.mem_singleton] at hs
      subst hs
      exact trRhs_lits htr v hv
  · -- tiAssign
    unfold tiAssign at hs
    split at hs
    · exact absurd hs (List.not_mem_nil s)
    · split at hs
      · simp only [List.mem_singleton] at hs
        subst hs
        exact tiRhs_lits (by assumption) v hv
      · exact absurd hs (List.not_mem_nil s)
  · rw [jjOut_noLits s hs] at hv; exact absurd hv (List.not_mem_nil v)
  · rw [xrAccumOut_noLits s hs] at hv; exact absurd hv (List.not_mem_nil v)
  · rw [iiOut_noLits s hs] at hv; exact absurd hv (List.not_mem_nil v)

/-- The literal bound is preserved along the inner butterfly loop. -/
theorem runInner_lits {eps epsOne wr wi : ℝ} {n k m : Nat}
    {ri ro so la : Bool} (st : List (Stmt ℝ) × (Nat → Bool))
    (hst : ∀ s ∈ st.1, ∀ v ∈ stmtLits s, eps < |v| ∧ |v| < epsOne) :
    ∀ s ∈ (runInner eps epsOne (-epsOne) wr wi n k m ri ro so la st).1,
      ∀ v ∈ stmtLits s, eps < |v| ∧ |v| < epsOne := by
  simp only [runInner]
  refine @foldl_preserve _ _
    (fun st => ∀ s ∈ st.1, ∀ v ∈ stmtLits s, eps < |v| ∧ |v| < epsOne)
    _ ?_ _ st hst
  intro st2 j hP s hs
  simp only [] at hs
  rcases List.mem_append.1 hs with hs | hs
  · exact hP s hs
  · exact butterfly_lits s hs

/-- The literal bound is preserved along one stage. -/
theorem runStage_lits {eps epsOne : ℝ} {tw : Nat → Nat → ℝ × ℝ} {n k : Nat}
    {ri ro so : Bool} (st : List (Stmt ℝ) × (Nat → Bool))
    (hst : ∀ s ∈ st.1, ∀ v ∈ stmtLits s, eps < |v| ∧ |v| < epsOne) :
    ∀ s ∈ (runStage eps epsOne (-epsOne) tw n k ri ro so st).1,
      ∀ v ∈ stmtLits s, eps < |v| ∧ |v| < epsOne := by
  simp only [runStage]
  refine @foldl_preserve _ _
    (fun st => ∀ s ∈ st.1, ∀ v ∈ stmtLits s, eps < |v| ∧ |v| < epsOne)
    _ ?_ _ st hst
  intro st2 m hP
  exact runInner_lits st2 hP

/-- Every literal in the whole transform emission lies strictly between the
thresholds. -/
theorem emitBflys_lits {eps epsOne : ℝ} {tw : Nat → Nat → ℝ × ℝ} {n : Nat}
    {ri ro so : Bool} :
    ∀ s ∈ (emitBflys eps epsOne (-epsOne) tw n ri ro so).1,
      ∀ v ∈ stmtLits s, eps < |v| ∧ |v| < epsOne := by
  simp only [emitBflys]
  refine @foldl_preserve _ _
    (fun st : List (Stmt ℝ) × (Nat → Bool) =>
      ∀ s ∈ st.1, ∀ v ∈ stmtLits s, eps < |v| ∧ |v| < epsOne)
    _ ?_ _ _ ?_
  · intro st2 k hP
    exact runStage_lits st2 hP
  · intro s hs
    exact absurd hs (List.not_mem_nil s)

/-- Hermitian fill statements carry no literals. -/
theorem emitFill_noLits {α : Type} {n i : Nat} :
    ∀ s ∈ emitFill α n i, stmtLits s = ([] : List α) := by
  intro s hs
  simp only [emitFill, List.mem_cons, List.mem_singleton,
    List.not_mem_nil, or_false] at hs
  rcases hs with rfl | rfl <;> rfl

/-- Swap statements carry no literals. -/
theorem emitSwap_noLits {α : Type} {n : Nat} {realIn : Bool} {x : SwapRec} :
    ∀ s ∈ emitSwap α n realIn x, stmtLits s = ([] : List α) := by
  intro s hs
  simp only [emitSwap] at hs
  repeat' split at hs
  all_goals simp only [List.mem_append, List.mem_cons, List.mem_singleton,
    List.not_mem_nil, or_false] at hs
  all_goals first
    | exact hs.elim
    | (rcases hs with ((rfl | rfl | rfl) | rfl | rfl | rfl) <;> rfl)
    | (rcases hs with ((rfl | rfl) | rfl | rfl) <;> rfl)
    | (rcases hs with (rfl | rfl | rfl) <;> rfl)
    | (rcases hs with rfl | rfl <;> rfl)
    | (subst hs; rfl)

/-- The whole permutation stage carries no literals. -/
theorem emitPerm_noLits {α : Type} {n : Nat} {realIn symmIn : Bool} :
    ∀ s ∈ emitPerm α n realIn symmIn, stmtLits s = ([] : List α) := by
  intro s hs
  simp only [emitPerm] at hs
  rcases List.mem_append.1 hs with hs | hs
  · split at hs
    · rcases List.mem_flatMap.1 hs with ⟨i, _, hsi⟩
      exact emitFill_noLits s hsi
    · exact absurd hs (List.not_mem_nil s)
  · rcases List.mem_flatMap.1 hs with ⟨x, _, hsx⟩
    exact emitSwap_noLits s hsx

/-- C5: no statement of the generated text carries a numeric literal `v`
with `|v| ≤ eps`, `v ≥ eps_one` or `v ≤ eps_minus_one`: every printed
literal satisfies `eps < |v| < eps_one` (twiddle factors equal to `0`,
`1` or `-1` are elided or rendered as pure signs). -/
theorem C5_literal_ranges :
    ∀ (n : Nat) (inv realIn realOut symmIn symmOut : Bool),
      (fftGenStmts n inv realIn realOut symmIn symmOut).Forall
        (fun s => (stmtLits s).Forall
          (fun v => epsOf n < |v| ∧ |v| < epsOneOf n)) := by
  intro n inv realIn realOut symmIn symmOut
  rw [List.forall_iff_forall_mem]
  intro s hs
  rw [List.forall_iff_forall_mem]
  intro v hv
  rcases List.mem_append.1 hs with h | h
  · rw [emitPerm_noLits s h] at hv
    exact absurd hv (List.not_mem_nil v)
  · rcases List.mem_cons.1 h with rfl | h
    · exact absurd hv (List.not_mem_nil v)
    · rw [epsMOneOf_eq_neg] at h
      exact emitBflys_lits s h v hv

/-! ## Record execution: written and untouched indices -/

/-- A record leaves alone every index it does not write. -/
theorem execRec_not_writes {α : Type} {n : Nat} {conj : α → α} {x : SwapRec}
    {A : Nat → α} {i : Nat} (h : ¬ Writes x i) :
    execRec n conj x A i = A i := by
  have h1 : ¬ i = x.m := fun he => h (Or.inl he.symm)
  have h2 : ¬ i = x.mr := fun he => h (Or.inr he.symm)
  unfold execRec
  split <;> simp [Function.update_apply, h1, h2]

/-- Value written at the `m` slot. -/
theorem execRec_writes_m {α : Type} {n : Nat} {conj : α → α} {x : SwapRec}
    {A : Nat → α} (hmm : x.m ≠ x.mr)
    (hsm : x.symmIn = true → x.mr_new ≠ x.mr) :
    execRec n conj x A x.m = wvalM n conj x A := by
  unfold execRec wvalM
  split
  · rename_i hsymm
    have hne : x.mr_new ≠ x.mr := hsm hsymm
    simp [Function.update_apply, hsymm, hmm, hne]
  · rename_i hsymm
    simp only [Bool.not_eq_true] at hsymm
    simp [Function.update_apply, hsymm, hmm, Ne.symm hmm]

/-- Value written at the `mr` slot. -/
theorem execRec_writes_mr {α : Type} {n : Nat} {conj : α → α} {x : SwapRec}
    {A : Nat → α} (hmm : x.m ≠ x.mr) :
    execRec n conj x A x.mr = wvalMr n conj x A := by
  unfold execRec wvalMr
  split
  · rename_i hsymm
    simp [Function.update_apply, hsymm, Ne.symm hmm]
  · rename_i hsymm
    simp only [Bool.not_eq_true] at hsymm
    simp [Function.update_apply, hsymm, Ne.symm hmm]

/-- `wvalM` reads only the record's source indices. -/
theorem wvalM_congr {α : Type} {n : Nat} {conj : α → α} {x : SwapRec}
    {A B : Nat → α} (h : ∀ i ∈ reads x, A i = B i) :
    wvalM n conj x A = wvalM n conj x B := by
  unfold wvalM
  by_cases hs : x.symmIn = true
  · have := h x.mr_new (by simp [reads, hs])
    simp [hs, this]
  · simp only [Bool.not_eq_true] at hs
    have := h x.mr (by simp [reads, hs])
    simp [hs, this]

/-- `wvalMr` reads only the record's source indices. -/
theorem wvalMr_congr {α : Type} {n : Nat} {conj : α → α} {x : SwapRec}
    {A B : Nat → α} (h : ∀ i ∈ reads x, A i = B i) :
    wvalMr n conj x A = wvalMr n conj x B := by
  unfold wvalMr
  by_cases hs : x.symmIn = true
  · have := h x.m_new (by simp [reads, hs])
    simp [hs, this]
  · simp only [Bool.not_eq_true] at hs
    have := h x.m (by simp [reads, hs])
    simp [hs, this]

/-- A record list leaves alone every index none of its records writes. -/
theorem execRecs_not_writes {α : Type} {n : Nat} {conj : α → α} :
    ∀ {L : List SwapRec} {A : Nat → α} {i : Nat},
      (∀ x ∈ L, ¬ Writes x i) → execRecs n conj L A i = A i := by
  intro L
  induction L with
  | nil => intro A i _; rfl
  | cons x L ih =>
    intro A i h
    have hx := h x (List.mem_cons_self x L)
    have hL : ∀ y ∈ L, ¬ Writes y i := fun y hy => h y (List.mem_cons_of_mem x hy)
    show execRecs n conj L (execRec n conj x A) i = A i
    rw [ih hL, execRec_not_writes hx]

/-- Under pairwise write-disjointness and read/write safety, every record's
slots end up holding exactly the values computed from the array as it was
when the list started executing. -/
theorem execRecs_writes {α : Type} {n : Nat} {conj : α → α} :
    ∀ {L : List SwapRec},
      L.Pairwise (fun a b => ∀ i, ¬ (Writes a i ∧ Writes b i)) →
      SafeList L →
      (∀ x ∈ L, x.m ≠ x.mr) →
      (∀ x ∈ L, x.symmIn = true → x.mr_new ≠ x.mr) →
      ∀ (A : Nat → α), ∀ y ∈ L,
        execRecs n conj L A y.m = wvalM n conj y A ∧
        execRecs n conj L A y.mr = wvalMr n conj y A := by
  intro L
  induction L with
  | nil => intro _ _ _ _ A y hy; cases hy
  | cons x L ih =>
    intro hdisj hsafe hmm hsm A y hy
    have hdx : ∀ b ∈ L, ∀ i, ¬ (Writes x i ∧ Writes b i) :=
      (List.pairwise_cons.1 hdisj).1
    have hdL := (List.pairwise_cons.1 hdisj).2
    have hsx : ∀ b ∈ L, ∀ i ∈ reads b, ¬ Writes x i :=
      (List.pairwise_cons.1 hsafe).1
    have hsL := (List.pairwise_cons.1 hsafe).2
    rcases List.mem_cons.1 hy with rfl | hy
    · -- the head record: nothing later writes its slots
      have hm : ∀ z ∈ L, ¬ Writes z y.m := by
        intro z hz hw
        exact hdx z hz y.m ⟨Or.inl rfl, hw⟩
      have hmr : ∀ z ∈ L, ¬ Writes z y.mr := by
        intro z hz hw
        exact hdx z hz y.mr ⟨Or.inr rfl, hw⟩
      constructor
      · show execRecs n conj L (execRec n conj y A) y.m = _
        rw [execRecs_not_writes hm,
          execRec_writes_m (hmm y (List.mem_cons_self y L))
            (hsm y (List.mem_cons_self y L))]
      · show execRecs n conj L (execRec n conj y A) y.mr = _
        rw [execRecs_not_writes hmr,
          execRec_writes_mr (hmm y (List.mem_cons_self y L))]
    · -- a later record reads only values the head did not touch
      have hreads : ∀ i ∈ reads y, execRec n conj x A i = A i := by
        intro i hi
        exact execRec_not_writes (hsx y hy i hi)
      have := ih hdL hsL
        (fun z hz => hmm z (List.mem_cons_of_mem x hz))
        (fun z hz => hsm z (List.mem_cons_of_mem x hz))
        (execRec n conj x A) y hy
      refine ⟨?_, ?_⟩
      · show execRecs n conj L (execRec n conj x A) y.m = _
        rw [this.1, wvalM_congr hreads]
      · show execRecs n conj L (execRec n conj x A) y.mr = _
        rw [this.2, wvalMr_congr hreads]

/-! ## The Hermitian fill-ins -/

/-- Fills leave alone every index not in the fill list. -/
theorem execFills_not_mem {α : Type} {n : Nat} {conj : α → α} :
    ∀ {fs : List Nat} {A : Nat → α} {i : Nat}, i ∉ fs →
      execFills n conj fs A i = A i := by
  intro fs
  induction fs with
  | nil => intro A i _; rfl
  | cons f fs ih =>
    intro A i h
    have h1 : i ∉ fs := fun hm => h (List.mem_cons_of_mem f hm)
    have h2 : i ≠ f := fun he => h (he ▸ List.mem_cons_self f fs)
    show execFills n conj fs (Function.update A f (conj (A (n - f)))) i = A i
    rw [ih h1, Function.update_apply, if_neg h2]

/-- Each filled index receives the conjugated mirror of the original
array (fill indices are all above `n/2`, their sources all below). -/
theorem execFills_mem {α : Type} {n : Nat} {conj : α → α} :
    ∀ {fs : List Nat} {A : Nat → α},
      (∀ f ∈ fs, n / 2 < f) → fs.Nodup →
      ∀ f ∈ fs, execFills n conj fs A f = conj (A (n - f)) := by
  intro fs
  induction fs with
  | nil => intro A _ _ f hf; cases hf
  | cons g fs ih =>
    intro A hub hnd f hf
    have hgub := hub g (List.mem_cons_self g fs)
    rcases List.mem_cons.1 hf with rfl | hf
    · have hnotin : f ∉ fs := (List.nodup_cons.1 hnd).1
      show execFills n conj fs (Function.update A f (conj (A (n - f)))) f
        = conj (A (n - f))
      rw [execFills_not_mem hnotin, Function.update_apply, if_pos rfl]
    · have hfub := hub f (List.mem_cons_of_mem g hf)
      have hne : n - f ≠ g := by omega
      show execFills n conj fs (Function.update A g (conj (A (n - g)))) f
        = conj (A (n - f))
      rw [ih (fun z hz => hub z (List.mem_cons_of_mem g hz))
        (List.nodup_cons.1 hnd).2 f hf, Function.update_apply, if_neg hne]

/-- Membership in the fill list. -/
theorem mem_fillIdxs {n i : Nat} {l : List SwapRec} :
    i ∈ fillIdxs n l ↔
      (n / 2 + 1 ≤ i ∧ i < n ∧ ∀ x ∈ l, ¬ Writes x i) := by
  unfold fillIdxs
  rw [List.mem_filter]
  simp only [List.mem_range', List.all_eq_true, decide_eq_true_eq]
  constructor
  · rintro ⟨⟨j, hj, rfl⟩, h2⟩
    refine ⟨by omega, by omega, ?_⟩
    intro x hx hw
    exact h2 x hx hw
  · rintro ⟨h1, h2, h3⟩
    exact ⟨⟨i - (n / 2 + 1), by omega, by omega⟩, fun x hx hw => h3 x hx hw⟩

/-- The fill list has no duplicates. -/
theorem fillIdxs_nodup {n : Nat} {l : List SwapRec} : (fillIdxs n l).Nodup :=
  (List.nodup_range' ..).filter _

/-! ## Which pair covers an index -/

/-- `mkRec` on a pair with both indices in the lower half. -/
theorem mkRec_nonsymm {n m mr : Nat} (h : m ≤ n / 2 ∧ mr ≤ n / 2) :
    mkRec n m mr = ⟨m, mr, 0, 0, false⟩ := by
  unfold mkRec; rw [if_pos h]

/-- `mkRec` on a pair reaching into the upper half. -/
theorem mkRec_symm {n m mr : Nat} (h : ¬ (m ≤ n / 2 ∧ mr ≤ n / 2)) :
    mkRec n m mr = ⟨m, mr, if n / 2 < m then n - m else m,
      if n / 2 < mr then n - mr else mr, true⟩ := by
  unfold mkRec; rw [if_neg h]

/-- An index below its reversal is the first slot of a candidate pair. -/
theorem pair_cover_lt {r i : Nat} (hi : i < 2 ^ r) (hlt : i < bitRev r i) :
    (i, bitRev r i) ∈ pairs r := by
  have hpow : 0 < 2 ^ r := pow_pos (by norm_num) r
  have h1 : 1 ≤ i := by
    rcases Nat.eq_zero_or_pos i with rfl | h
    · rw [bitRev_zero] at hlt; omega
    · exact h
  exact mem_pairsUpTo.2 ⟨h1, by omega, rfl, hlt⟩

/-- An index above its reversal is the second slot of a candidate pair. -/
theorem pair_cover_gt {r i : Nat} (hi : i < 2 ^ r) (hgt : bitRev r i < i) :
    (bitRev r i, i) ∈ pairs r := by
  have hpow : 0 < 2 ^ r := pow_pos (by norm_num) r
  have hrr := bitRev_bitRev r i hi
  have h1 : 1 ≤ bitRev r i := by
    rcases Nat.eq_zero_or_pos (bitRev r i) with he | h
    · rw [he, bitRev_zero] at hrr; omega
    · exact h
  have hlt2 : bitRev r i < 2 ^ r := bitRev_lt r i
  exact mem_pairsUpTo.2 ⟨h1, by omega, hrr.symm, hgt⟩

/-! ## The planner lists satisfy the execution hypotheses -/

/-- Records of the plain plan. -/
theorem plan_false_mem {r : Nat} {x : SwapRec} (hx : x ∈ plan (2 ^ r) false) :
    ∃ p ∈ pairs r, x = ⟨p.1, p.2, 0, 0, false⟩ := by
  rw [plan_false_eq] at hx
  rcases List.mem_map.1 hx with ⟨p, hp, he⟩
  exact ⟨p, hp, he.symm⟩

/-- Distinct records of the plain plan write disjoint index sets. -/
theorem plan_false_disj (r : Nat) :
    (plan (2 ^ r) false).Pairwise (fun a b => ∀ i, ¬ (Writes a i ∧ Writes b i)) := by
  rw [plan_false_eq, List.pairwise_map]
  refine (pairs_sorted r).imp_of_mem ?_
  intro p q hp hq hlt i ⟨hwp, hwq⟩
  have he : p = q := pairs_unique hp hq (by simpa [Writes] using hwp)
    (by simpa [Writes] using hwq)
  subst he
  exact absurd rfl (Nat.ne_of_lt hlt)

/-- The plain plan is read/write safe (its records read exactly what they
write, and distinct records are index-disjoint). -/
theorem plan_false_safe (r : Nat) : SafeList (plan (2 ^ r) false) := by
  refine (plan_false_disj r).imp_of_mem ?_
  intro a b ha hb hd i hi hw
  obtain ⟨p, hp, rfl⟩ := plan_false_mem hb
  refine hd i ⟨hw, ?_⟩
  have hm : i = p.1 ∨ i = p.2 := by simpa [reads] using hi
  simp only [Writes]
  rcases hm with he | he <;> subst he
  · exact Or.inl rfl
  · exact Or.inr rfl

/-- Plain-plan records swap two distinct indices. -/
theorem plan_false_mm (r : Nat) : ∀ x ∈ plan (2 ^ r) false, x.m ≠ x.mr := by
  intro x hx
  obtain ⟨p, hp, rfl⟩ := plan_false_mem hx
  have := (mem_pairs hp).2.2.2.1
  simpa using Nat.ne_of_lt this

/-- Plain-plan records carry no symmetry flag. -/
theorem plan_false_sm (r : Nat) :
    ∀ x ∈ plan (2 ^ r) false, x.symmIn = true → x.mr_new ≠ x.mr := by
  intro x hx h
  obtain ⟨p, hp, rfl⟩ := plan_false_mem hx
  cases h

/-- Distinct records of the symmetry plan write disjoint index sets. -/
theorem plan_true_disj (r : Nat) :
    (plan (2 ^ r) true).Pairwise (fun a b => ∀ i, ¬ (Writes a i ∧ Writes b i)) := by
  have hperm := (plan_symm_inv r).1
  refine (hperm.pairwise_iff ?_).2 ?_
  · intro a b h i hw; exact h i ⟨hw.2, hw.1⟩
  · rw [List.pairwise_map]
    refine (pairs_sorted r).imp_of_mem ?_
    intro p q hp hq hlt i ⟨hwp, hwq⟩
    have he : p = q := pairs_unique hp hq
      (by simpa [Writes, mkRec_m, mkRec_mr] using hwp)
      (by simpa [Writes, mkRec_m, mkRec_mr] using hwq)
    subst he
    exact absurd rfl (Nat.ne_of_lt hlt)

/-- Symmetry-plan records swap two distinct indices. -/
theorem plan_true_mm (r : Nat) : ∀ x ∈ plan (2 ^ r) true, x.m ≠ x.mr := by
  intro x hx
  obtain ⟨hp, _⟩ := mem_of_perm_map (plan_symm_inv r).1 hx
  exact Nat.ne_of_lt (mem_pairs hp).2.2.2.1

/-- In a symmetry record the replacement source `n - mr` differs from the
destination `mr`. -/
theorem plan_true_sm (r : Nat) :
    ∀ x ∈ plan (2 ^ r) true, x.symmIn = true → x.mr_new ≠ x.mr := by
  intro x hx hsymm
  obtain ⟨hp, hxe⟩ := mem_of_perm_map (plan_symm_inv r).1 hx
  obtain ⟨_, _, _, hlt, hmr2, _⟩ := mem_pairs hp
  by_cases hc : x.m ≤ 2 ^ r / 2 ∧ x.mr ≤ 2 ^ r / 2
  · have : x.symmIn = false := by
      conv_lhs => rw [hxe, mkRec_nonsymm hc]
    rw [this] at hsymm; cases hsymm
  · have hhl : 2 ^ r / 2 < x.mr := by
      rcases not_and_or.1 hc with h | h <;> omega
    have hnew : x.mr_new = 2 ^ r - x.mr := by
      conv_lhs => rw [hxe, mkRec_symm hc]
      simp [hhl]
    rw [hnew]
    omega

/-- Executing the plain plan's records applies the bit-reversal
permutation. -/
theorem execRecs_bitrev {α : Type} {r : Nat} (conj : α → α) (A : Nat → α) :
    ∀ i, i < 2 ^ r →
      execRecs (2 ^ r) conj (plan (2 ^ r) false) A i = A (bitRev r i) := by
  intro i hi
  by_cases hrev : bitRev r i = i
  · rw [hrev]
    apply execRecs_not_writes
    intro x hx hw
    obtain ⟨p, hp, rfl⟩ := plan_false_mem hx
    obtain ⟨_, _, hmr_eq, hlt, _, hinv⟩ := mem_pairs hp
    simp only [Writes] at hw
    rcases hw with he | he
    · have he2 : p.1 = i := he
      subst he2
      rw [← hmr_eq] at hrev
      omega
    · have he2 : p.2 = i := he
      subst he2
      rw [hinv] at hrev
      omega
  · rcases Nat.lt_or_ge i (bitRev r i) with hlt | hge
    · have hp := pair_cover_lt hi hlt
      have hy : (⟨i, bitRev r i, 0, 0, false⟩ : SwapRec) ∈ plan (2 ^ r) false := by
        rw [plan_false_eq]; exact List.mem_map.2 ⟨(i, bitRev r i), hp, rfl⟩
      have hr := (@execRecs_writes α (2 ^ r) conj (plan (2 ^ r) false)
        (plan_false_disj r) (plan_false_safe r)
        (plan_false_mm r) (plan_false_sm r) A _ hy).1
      simpa [wvalM] using hr
    · have hgt : bitRev r i < i := by omega
      have hp := pair_cover_gt hi hgt
      have hy : (⟨bitRev r i, i, 0, 0, false⟩ : SwapRec) ∈ plan (2 ^ r) false := by
        rw [plan_false_eq]; exact List.mem_map.2 ⟨(bitRev r i, i), hp, rfl⟩
      have hr := (@execRecs_writes α (2 ^ r) conj (plan (2 ^ r) false)
        (plan_false_disj r) (plan_false_safe r)
        (plan_false_mm r) (plan_false_sm r) A _ hy).2
      simpa [wvalMr] using hr

/-! ## Claim C3: the plain bit-reversal permutation -/

/-- Running a concatenation of statement lists. -/
theorem execStmts_append {α : Type} [LinearOrderedField α] (σ : MachState α)
    (l1 l2 : List (Stmt α)) :
    execStmts σ (l1 ++ l2) = execStmts (execStmts σ l1) l2 := by
  simp [execStmts, List.foldl_append]

/-- The emitted swap statements of a plain record perform the record's
array swap (through the temporaries, lines 788-794). -/
theorem emitSwap_exec {α : Type} [LinearOrderedField α] {n : Nat}
    {realIn : Bool} {x : SwapRec} (hx : x.symmIn = false) (σ : MachState α) :
    execStmts σ (emitSwap α n realIn x)
      = ⟨execRec n id x σ.xr,
         if realIn then σ.xi else execRec n id x σ.xi,
         σ.xr x.m,
         if realIn then σ.ti else σ.xi x.m⟩ := by
  rcases σ with ⟨xr, xi, tr, ti⟩
  cases realIn <;>
    simp [emitSwap, hx, execStmts, execStmt, execRec]

/-- Statement-level execution of a list of plain records agrees with the
record-level semantics on both arrays. -/
theorem execStmts_records {α : Type} [LinearOrderedField α]
    (n : Nat) (realIn : Bool) :
    ∀ (L : List SwapRec), (∀ x ∈ L, x.symmIn = false) → ∀ (σ : MachState α),
      (execStmts σ (L.flatMap (emitSwap α n realIn))).xr
          = execRecs n id L σ.xr ∧
      (execStmts σ (L.flatMap (emitSwap α n realIn))).xi
          = (if realIn then σ.xi else execRecs n id L σ.xi) := by
  intro L
  induction L with
  | nil =>
    intro _ σ
    refine ⟨rfl, ?_⟩
    cases realIn <;> rfl
  | cons x L ih =>
    intro hall σ
    have hx := hall x (List.mem_cons_self x L)
    have hL := fun z hz => hall z (List.mem_cons_of_mem x hz)
    rw [List.flatMap_cons, execStmts_append, emitSwap_exec hx]
    obtain ⟨h1, h2⟩ := ih hL
      ⟨execRec n id x σ.xr, if realIn then σ.xi else execRec n id x σ.xi,
        σ.xr x.m, if realIn then σ.ti else σ.xi x.m⟩
    refine ⟨h1, ?_⟩
    cases realIn
    · exact h2
    · exact h2

/-- C3: with `symm_in` unset the planner produces exactly the pairs
`(m, bitRev m)` with `bitRev m > m`, in increasing order of `m`, and
executing the emitted swap statements applies the bit-reversal permutation
to `xr`, and to `xi` as well unless `real_in` suppressed the `xi` moves. -/
theorem C3_bit_reversal :
    ∀ r : Nat,
      ((plan (2 ^ r) false).map (fun x => (x.m, x.mr)) = pairs r) ∧
      ((plan (2 ^ r) false).map (fun x => x.m)).Pairwise (fun a b => a < b) ∧
      (∀ p ∈ pairs r, p.2 = bitRev r p.1 ∧ p.1 < p.2) ∧
      (∀ (σ : MachState ℝ) (realIn : Bool) (i : Nat), i < 2 ^ r →
        (execStmts σ (emitPerm ℝ (2 ^ r) realIn false)).xr i
            = σ.xr (bitRev r i) ∧
        (realIn = false →
          (execStmts σ (emitPerm ℝ (2 ^ r) realIn false)).xi i
              = σ.xi (bitRev r i))) := by
  intro r
  refine ⟨?_, ?_, ?_, ?_⟩
  · rw [plan_false_eq, List.map_map]
    have hcomp : ((fun x : SwapRec => (x.m, x.mr))
        ∘ fun p : Nat × Nat => (⟨p.1, p.2, 0, 0, false⟩ : SwapRec)) = id := by
      funext p; rfl
    rw [hcomp, List.map_id]
  · rw [plan_false_eq, List.map_map, List.pairwise_map]
    exact pairs_sorted r
  · intro p hp
    obtain ⟨pm, pmr⟩ := p
    obtain ⟨_, _, h3, h4, _⟩ := mem_pairs hp
    exact ⟨h3, h4⟩
  · intro σ realIn i hi
    have hall : ∀ x ∈ plan (2 ^ r) false, x.symmIn = false := by
      intro x hx
      obtain ⟨p, _, rfl⟩ := plan_false_mem hx
      rfl
    obtain ⟨h1, h2⟩ := execStmts_records (2 ^ r) realIn (plan (2 ^ r) false)
      hall σ
    have hperm_eq : emitPerm ℝ (2 ^ r) realIn false
        = (plan (2 ^ r) false).flatMap (emitSwap ℝ (2 ^ r) realIn) := rfl
    constructor
    · rw [hperm_eq, h1, execRecs_bitrev id σ.xr i hi]
    · intro hri
      subst hri
      rw [hperm_eq, h2]
      exact execRecs_bitrev id σ.xi i hi

/-! ## Claim C2: the reordered symmetry plan -/

/-- C2: the reordered `symm_in` record list is read/write safe — no record
reads an index an earlier record has written — and executing the Hermitian
fill-ins followed by the reordered records against a pristine array yields,
at every index, the same contents as executing the un-reordered plain swaps
against an array whose whole upper half was Hermitian-filled in advance. -/
theorem C2_symm_plan :
    ∀ r : Nat,
      SafeList (plan (2 ^ r) true) ∧
      (∀ (α : Type) (conj : α → α) (A : Nat → α) (i : Nat), i < 2 ^ r →
        execRecs (2 ^ r) conj (plan (2 ^ r) true)
            (execFills (2 ^ r) conj (fillIdxs (2 ^ r) (plan (2 ^ r) true)) A) i
          = execRecs (2 ^ r) conj (plan (2 ^ r) false)
              (prefillHerm (2 ^ r) conj A) i) := by
  intro r
  refine ⟨plan_symm_safe r, ?_⟩
  intro α conj A i hi
  rw [execRecs_bitrev conj (prefillHerm (2 ^ r) conj A) i hi]
  have hperm := (plan_symm_inv r).1
  have hdisj := plan_true_disj r
  have hsafe := plan_symm_safe r
  have hmm := plan_true_mm r
  have hsm := plan_true_sm r
  set B := execFills (2 ^ r) conj (fillIdxs (2 ^ r) (plan (2 ^ r) true)) A
    with hBdef
  have hfub : ∀ f ∈ fillIdxs (2 ^ r) (plan (2 ^ r) true), 2 ^ r / 2 < f := by
    intro f hf
    have := (mem_fillIdxs.1 hf).1
    omega
  have hBlow : ∀ j, j ≤ 2 ^ r / 2 → B j = A j := by
    intro j hj
    apply execFills_not_mem
    intro hmem
    have := (mem_fillIdxs.1 hmem).1
    omega
  by_cases hrev : bitRev r i = i
  · -- untouched index (or Hermitian-filled)
    rw [hrev]
    have huntouch : ∀ x ∈ plan (2 ^ r) true, ¬ Writes x i := by
      intro x hx hw
      obtain ⟨hp, _⟩ := mem_of_perm_map hperm hx
      obtain ⟨_, _, hmr_eq, hlt, _, hinv⟩ := mem_pairs hp
      rcases hw with he | he
      · have h2 : x.mr = bitRev r i := by rw [← he]; exact hmr_eq
        rw [hrev] at h2
        omega
      · have h2 : bitRev r i = x.m := by rw [← he]; exact hinv
        rw [hrev] at h2
        omega
    rw [execRecs_not_writes huntouch]
    by_cases hfill : i ∈ fillIdxs (2 ^ r) (plan (2 ^ r) true)
    · rw [hBdef, execFills_mem hfub fillIdxs_nodup i hfill]
      obtain ⟨hf1, hf2, _⟩ := mem_fillIdxs.1 hfill
      unfold prefillHerm
      have hand : 2 ^ r / 2 < i ∧ i < 2 ^ r := ⟨by omega, hf2⟩
      rw [if_pos hand]
    · have hle : i ≤ 2 ^ r / 2 := by
        by_contra hgt
        exact hfill (mem_fillIdxs.2 ⟨by omega, hi, huntouch⟩)
      rw [hBlow i hle]
      unfold prefillHerm
      have hand : ¬ (2 ^ r / 2 < i ∧ i < 2 ^ r) :=
        fun hx => absurd hx.1 (Nat.not_lt.2 hle)
      rw [if_neg hand]
  · rcases Nat.lt_or_ge i (bitRev r i) with hltc | hgec
    · -- i is the first slot of its pair
      have hp := pair_cover_lt hi hltc
      have hy : mkRec (2 ^ r) i (bitRev r i) ∈ plan (2 ^ r) true :=
        hperm.mem_iff.2 (List.mem_map.2 ⟨(i, bitRev r i), hp, rfl⟩)
      have hw := (@execRecs_writes α (2 ^ r) conj _ hdisj hsafe hmm hsm
        B _ hy).1
      rw [mkRec_m] at hw
      rw [hw]
      by_cases hc : i ≤ 2 ^ r / 2 ∧ bitRev r i ≤ 2 ^ r / 2
      · rw [mkRec_nonsymm hc]
        have hv : wvalM (2 ^ r) conj
            (⟨i, bitRev r i, 0, 0, false⟩ : SwapRec) B = B (bitRev r i) := by
          simp [wvalM]
        rw [hv, hBlow _ hc.2]
        unfold prefillHerm
        have hand : ¬ (2 ^ r / 2 < bitRev r i ∧ bitRev r i < 2 ^ r) :=
          fun hx => absurd hx.1 (Nat.not_lt.2 hc.2)
        rw [if_neg hand]
      · obtain ⟨hr1, hhalf, hmrhl, _, _, hmrub, hsub2, hsubhl, _, _⟩ :=
          pairs_symm_facts hp hc
        have hbhl : 2 ^ r / 2 < bitRev r i := by rw [hhalf]; exact hmrhl
        rw [mkRec_symm hc]
        have hv : wvalM (2 ^ r) conj
            (⟨i, bitRev r i,
              if 2 ^ r / 2 < i then 2 ^ r - i else i,
              if 2 ^ r / 2 < bitRev r i then 2 ^ r - bitRev r i else bitRev r i,
              true⟩ : SwapRec) B = conj (B (2 ^ r - bitRev r i)) := by
          simp [wvalM, hbhl]
        rw [hv]
        have hlow : 2 ^ r - bitRev r i ≤ 2 ^ r / 2 := by
          rw [hhalf]; exact Nat.le_of_lt hsubhl
        rw [hBlow _ hlow]
        unfold prefillHerm
        have hand : 2 ^ r / 2 < bitRev r i ∧ bitRev r i < 2 ^ r :=
          ⟨hbhl, bitRev_lt r i⟩
        rw [if_pos hand]
    · -- i is the second slot of its pair
      have hgt : bitRev r i < i := by omega
      have hp := pair_cover_gt hi hgt
      have hy : mkRec (2 ^ r) (bitRev r i) i ∈ plan (2 ^ r) true :=
        hperm.mem_iff.2 (List.mem_map.2 ⟨(bitRev r i, i), hp, rfl⟩)
      have hw := (@execRecs_writes α (2 ^ r) conj _ hdisj hsafe hmm hsm
        B _ hy).2
      rw [mkRec_mr] at hw
      rw [hw]
      by_cases hc : bitRev r i ≤ 2 ^ r / 2 ∧ i ≤ 2 ^ r / 2
      · rw [mkRec_nonsymm hc]
        have hv : wvalMr (2 ^ r) conj
            (⟨bitRev r i, i, 0, 0, false⟩ : SwapRec) B = B (bitRev r i) := by
          simp [wvalMr]
        rw [hv, hBlow _ hc.1]
        unfold prefillHerm
        have hand : ¬ (2 ^ r / 2 < bitRev r i ∧ bitRev r i < 2 ^ r) :=
          fun hx => absurd hx.1 (Nat.not_lt.2 hc.1)
        rw [if_neg hand]
      · obtain ⟨hr1, hhalf, _, _, _, _, _, _, hmlo, hmhi⟩ :=
          pairs_symm_facts hp hc
        rw [mkRec_symm hc]
        by_cases hbl : bitRev r i ≤ 2 ^ r / 2
        · have hnb : ¬ 2 ^ r / 2 < bitRev r i := Nat.not_lt.2 hbl
          have hv : wvalMr (2 ^ r) conj
              (⟨bitRev r i, i,
                if 2 ^ r / 2 < bitRev r i then 2 ^ r - bitRev r i else bitRev r i,
                if 2 ^ r / 2 < i then 2 ^ r - i else i,
                true⟩ : SwapRec) B = B (bitRev r i) := by
            simp [wvalMr, hnb]
          rw [hv, hBlow _ hbl]
          unfold prefillHerm
          have hand : ¬ (2 ^ r / 2 < bitRev r i ∧ bitRev r i < 2 ^ r) :=
            fun hx => absurd hx.1 hnb
          rw [if_neg hand]
        · have hbgt : 2 ^ r / 2 < bitRev r i := Nat.not_le.1 hbl
          have hbgt2 : 2 ^ (r - 1) < bitRev r i := by rw [← hhalf]; exact hbgt
          obtain ⟨hge2, hlthalf⟩ := hmhi hbgt2
          have hv : wvalMr (2 ^ r) conj
              (⟨bitRev r i, i,
                if 2 ^ r / 2 < bitRev r i then 2 ^ r - bitRev r i else bitRev r i,
                if 2 ^ r / 2 < i then 2 ^ r - i else i,
                true⟩ : SwapRec) B = conj (B (2 ^ r - bitRev r i)) := by
            simp [wvalMr, hbgt]
          rw [hv]
          have hlow : 2 ^ r - bitRev r i ≤ 2 ^ r / 2 := by
            rw [hhalf]; exact Nat.le_of_lt hlthalf
          rw [hBlow _ hlow]
          unfold prefillHerm
          have hand : 2 ^ r / 2 < bitRev r i ∧ bitRev r i < 2 ^ r :=
            ⟨hbgt, bitRev_lt r i⟩
          rw [if_pos hand]

end FftGen
